import Mathlib

/-!
# Verification of the field-resolution core of the Free Fire info bot

Shallow embedding of `src/main.py` (v2.5). The embedding models:

* `_norm`            — key normalization (underscore/hyphen removal + lowercasing)
* `_search_all`      — recursive depth-first candidate search over a JSON document
* `_to_str`          — value rendering (JSON dump truncated to 200 chars for composites)
* `_coerce_int`      — digit extraction / integer re-rendering for count fields
* `pick_best`        — scored candidate selection
* `format_player_info` resolutions (the nine `pick_best` calls and root selection)
* `parse_command`    — chat text parsing (`/start`, `/check`, bare digits)
* `fetch_player` / the webhook check branch — upstream error reporting

Model scope: Python strings are modelled over Lean `Char` lists; the character
classes of Python's `re` (`\d`, `\w`, `\s`), `str.lower`, and `str.strip` are
modelled on their ASCII fragments, which covers every key, hint and command
the program manipulates.  Python `dict`s are modelled as association lists in
insertion order; Python's unbounded `int` is `Int`/`Nat`.
-/

/-! ## Characters and strings -/
/-- ASCII fragment of Python `str.lower` applied to one character
(`c.lower()` for `A`–`Z`, identity otherwise). -/
def lowerChar (c : Char) : Char :=
  if 'A' ≤ c ∧ c ≤ 'Z' then Char.ofNat (c.toNat + 32) else c

/-- Python `str.lower` (ASCII model), characterwise. -/
def lowerStr (s : String) : String :=
  String.mk (s.toList.map lowerChar)

/-- Python regex class `\d` (ASCII model): a decimal digit `0`–`9`. -/
def pyIsDigit (c : Char) : Bool :=
  '0' ≤ c ∧ c ≤ '9'

/-- ASCII letter (either case); the character class `[a-z]` under `re.IGNORECASE`. -/
def pyIsAlpha (c : Char) : Bool :=
  ('a' ≤ c ∧ c ≤ 'z') ∨ ('A' ≤ c ∧ c ≤ 'Z')

/-- Python regex class `\w` (ASCII model): letter, digit or underscore. -/
def pyIsWord (c : Char) : Bool :=
  pyIsAlpha c ∨ pyIsDigit c ∨ c = '_'

/-- Python regex class `\s` / `str.strip` whitespace (ASCII model). -/
def pyIsSpace (c : Char) : Bool :=
  c = ' ' ∨ c = '\t' ∨ c = '\n' ∨ c = '\r' ∨ c = '\x0b' ∨ c = '\x0c'

/-- Python `str.strip()`: remove leading and trailing whitespace. -/
def pyStrip (s : String) : String :=
  String.mk (((s.toList.dropWhile pyIsSpace).reverse.dropWhile pyIsSpace).reverse)

/-- Python `str.startswith`. -/
def pyStartsWith (s pre : String) : Bool :=
  pre.toList.isPrefixOf s.toList

/-- Python substring containment `needle in hay`. -/
def strContains (hay needle : String) : Bool :=
  hay.toList.tails.any (fun t => needle.toList.isPrefixOf t)

/-- Python `len` on a string (count of code points). -/
def pyLen (s : String) : Nat :=
  s.toList.length

/-! ## Key normalization (`_norm`, src/main.py:97-98)

`return s.replace("_", "").replace("-", "").lower()` -/
def _norm (s : String) : String :=
  lowerStr (String.mk ((s.toList.filter (fun c => c ≠ '_')).filter (fun c => c ≠ '-')))

/-! ## The JSON document model

The upstream response is an untyped tree of mappings (insertion-ordered),
sequences, and scalars (src treats it as parsed `r.json()` output). -/
inductive Json where
  | obj  : List (String × Json) → Json
  | arr  : List Json → Json
  | str  : String → Json
  | num  : Int → Json
  | bool : Bool → Json
  | null : Json
  deriving Repr

/-- A candidate: `(value, path, matched_key_norm)` as produced by `_search_all`. -/
abbrev Cand := Json × String × String

/-- Path extension for a map key: `f"{path}.{k}" if path else k`. -/
def joinPath (base k : String) : String :=
  if base = "" then k else base ++ "." ++ k

/-- Path extension for a sequence index: `f"{path}[{idx}]"`. -/
def idxPath (base : String) (i : Nat) : String :=
  base ++ "[" ++ toString i ++ "]"

/-! `_search_all` (src/main.py:100-113): return all `(value, path, matched_key_norm)`
occurrences depth-first; for a dict, matching direct children are appended first,
then each child is recursed into, both in insertion order; for a list, elements
are visited in index order with bracketed-index path suffixes. -/
mutual

def _search_all (obj : Json) (want : List String) (path : String) : List Cand :=
  match obj with
  | Json.obj kvs =>
      (kvs.filterMap (fun kv =>
        if _norm kv.1 ∈ want then some (kv.2, joinPath path kv.1, _norm kv.1) else none))
      ++ searchChildren kvs want path
  | Json.arr xs => searchElems xs want path 0
  | _ => []

/-- The second loop of `_search_all`: recurse into each dict entry in order. -/
def searchChildren (kvs : List (String × Json)) (want : List String) (path : String) :
    List Cand :=
  match kvs with
  | [] => []
  | (k, v) :: rest =>
      _search_all v want (joinPath path k) ++ searchChildren rest want path

/-- The list branch of `_search_all`: recurse into each element with its index. -/
def searchElems (xs : List Json) (want : List String) (path : String) (i : Nat) :
    List Cand :=
  match xs with
  | [] => []
  | x :: rest => _search_all x want (idxPath path i) ++ searchElems rest want path (i + 1)

end

/-! ## Trust sections (src/main.py:115-116) -/
def TRUST_SECTIONS_UID : List String := ["basicinfo", "profileinfo", "clanbasicinfo"]

def TRUST_SECTIONS_LIKES : List String := ["socialinfo", "basicinfo", "profileinfo"]

/-! ## JSON serialization (Python `json.dumps(..., ensure_ascii=False)`,
default separators `", "` and `": "`). -/
/-- Two-digit lowercase hex rendering of a value `< 256`, as in `\u00XX` escapes. -/
def hexDigit (n : Nat) : Char :=
  if n < 10 then Char.ofNat (48 + n) else Char.ofNat (87 + n)

/-- JSON string-character escaping as performed by `json.dumps` with
`ensure_ascii=False`: backslash, quote, the short control escapes, and
`\u00XX` for the remaining control characters; all else verbatim. -/
def jsonEscapeChar (c : Char) : List Char :=
  if c = '"' then ['\\', '"']
  else if c = '\\' then ['\\', '\\']
  else if c = '\n' then ['\\', 'n']
  else if c = '\t' then ['\\', 't']
  else if c = '\r' then ['\\', 'r']
  else if c.toNat = 8 then ['\\', 'b']
  else if c.toNat = 12 then ['\\', 'f']
  else if c.toNat < 32 then
    ['\\', 'u', '0', '0', hexDigit (c.toNat / 16), hexDigit (c.toNat % 16)]
  else [c]

/-- Rendering of `json.dumps` on a string value. -/
def dumpsStr (s : String) : String :=
  String.mk ('"' :: s.toList.flatMap jsonEscapeChar ++ ['"'])

mutual

/-- Model of `json.dumps(v, ensure_ascii=False)` with default separators. -/
def dumps (v : Json) : String :=
  match v with
  | Json.obj kvs => "\x7b" ++ dumpsKvs kvs ++ "\x7d"
  | Json.arr xs => "[" ++ dumpsElems xs ++ "]"
  | Json.str s => dumpsStr s
  | Json.num n => toString n
  | Json.bool b => if b then "true" else "false"
  | Json.null => "null"

def dumpsKvs (kvs : List (String × Json)) : String :=
  match kvs with
  | [] => ""
  | [(k, v)] => dumpsStr k ++ ": " ++ dumps v
  | (k, v) :: rest => dumpsStr k ++ ": " ++ dumps v ++ ", " ++ dumpsKvs rest

def dumpsElems (xs : List Json) : String :=
  match xs with
  | [] => ""
  | [x] => dumps x
  | x :: rest => dumps x ++ ", " ++ dumpsElems rest

end

/-- Python slice `s[:n]` on a string. -/
def strTake (s : String) (n : Nat) : String :=
  String.mk (s.toList.take n)

/-! `_to_str` (src/main.py:118-124): composites are dumped and truncated to 200
characters; scalars are rendered by Python `str`. -/
def _to_str (val : Json) : String :=
  match val with
  | Json.obj kvs => strTake (dumps (Json.obj kvs)) 200
  | Json.arr xs => strTake (dumps (Json.arr xs)) 200
  | Json.str s => s
  | Json.num n => toString n
  | Json.bool b => if b then "True" else "False"
  | Json.null => "None"

/-! `_coerce_int` (src/main.py:126-134): `re.sub(r"[^\d]", "", s)` keeps every
digit of `s` in order; if none remain the input is returned unchanged, else the
digit string is parsed by `int` and re-rendered by `str`. -/
/-- Python `int` on a nonempty all-digit string (fold of decimal digits). -/
def digitsToNat (l : List Char) : Nat :=
  l.foldl (fun n c => n * 10 + (c.toNat - 48)) 0

def _coerce_int (s : String) : String :=
  let digits := s.toList.filter pyIsDigit
  if digits = [] then s else toString (digitsToNat digits)

/-! ## `pick_best` (src/main.py:136-155) -/
/-- The dict `order = { _norm(k): i for i,k in enumerate(keys) }`: for a
normalized key, the index of the *last* alias it arises from (later
comprehension entries overwrite earlier ones). -/
def orderIdx (keys : List String) (nk : String) : Option Nat :=
  match keys with
  | [] => none
  | k :: rest =>
      match orderIdx rest nk with
      | some j => some (j + 1)
      | none => if _norm k = nk then some (0 : Nat) else none

/-- Model of `order.get(nk, 50)`. -/
def orderGet (keys : List String) (nk : String) : Nat :=
  (orderIdx keys nk).getD 50

/-- The local `score` function of `pick_best`. -/
def scoreOf (keys trust pen : List String) (item : Cand) : Int :=
  let pl := lowerStr item.2.1
  (100 - (orderGet keys item.2.2 : Int))
    + (if trust.any (fun sec => strContains pl sec) then 80 else 0)
    - (if pen.any (fun sec => strContains pl sec) then 80 else 0)
    - (if item.2.2 = "id" then 70 else 0)

/-- Python `max(xs, key=f)` with `x` the first element: keep the current
best, replacing it only on a strictly greater key (first maximum wins). -/
def pyMaxBy (f : Cand → Int) (x : Cand) (xs : List Cand) : Cand :=
  xs.foldl (fun b y => if f y > f b then y else b) x

/-- The candidate list `pick_best` scores: `_search_all(obj, {_norm(k) for k in keys})`. -/
def hitsOf (obj : Json) (keys : List String) : List Cand :=
  _search_all obj (keys.map _norm) ""

def pick_best (obj : Json) (keys trust pen : List String) : String × Option String :=
  match hitsOf obj keys with
  | [] => ("—", none)
  | c :: rest =>
      let best := pyMaxBy (scoreOf keys trust pen) c rest
      (_to_str best.1, some best.2.1)

/-! ## `format_player_info` (src/main.py:161-205) -/
/-- Model of `html.escape` with its default `quote=True`. -/
def htmlEscape (s : String) : String :=
  String.mk (s.toList.flatMap (fun c =>
    if c = '&' then "&amp;".toList
    else if c = '<' then "&lt;".toList
    else if c = '>' then "&gt;".toList
    else if c = '"' then "&quot;".toList
    else if c = '\'' then "&#x27;".toList
    else [c]))

/-- Model of `data.get(key)` on a mapping (first binding), `None` otherwise. -/
def jsonGet (v : Json) (key : String) : Option Json :=
  match v with
  | Json.obj kvs =>
      match kvs.find? (fun kv => kv.1 = key) with
      | some kv => some kv.2
      | none => none
  | _ => none

/-- Model of `root = data.get("data") if isinstance(data.get("data"), dict) else data`. -/
def effectiveRoot (data : Json) : Json :=
  match jsonGet data "data" with
  | some (Json.obj kvs) => Json.obj kvs
  | _ => data

/-- The nine field resolutions performed by `format_player_info`
(src/main.py:164-175), in source order, including the `_coerce_int`
post-processing of the likes field. -/
structure ResolvedFields where
  nickname : String × Option String
  uid      : String × Option String
  level    : String × Option String
  region   : String × Option String
  rank     : String × Option String
  likes    : String × Option String
  guild    : String × Option String
  country  : String × Option String
  bio      : String × Option String

def resolveFields (data : Json) : ResolvedFields :=
  let root := effectiveRoot data
  let nickname := pick_best root ["nickname", "name", "playername", "ign"] TRUST_SECTIONS_UID []
  let uid := pick_best root ["uid", "playeruid", "playerid", "player_id", "id"]
      TRUST_SECTIONS_UID ["petinfo", "creditscoreinfo", "diamondcost"]
  let level := pick_best root ["level", "playerlevel"] TRUST_SECTIONS_UID []
  let region := pick_best root ["region", "server"] TRUST_SECTIONS_UID []
  let rank := pick_best root ["rank", "tier", "ranktier"] TRUST_SECTIONS_UID []
  let likes := pick_best root ["likes", "like", "likecount", "like_count"]
      TRUST_SECTIONS_LIKES ["petinfo", "creditscoreinfo", "diamondcost"]
  let guild := pick_best root ["guild", "clan", "guildname", "clanname"] TRUST_SECTIONS_UID []
  let country := pick_best root ["country", "nationality", "regionname", "countryname"]
      TRUST_SECTIONS_UID []
  let bio := pick_best root ["signature", "bio", "about", "status"] TRUST_SECTIONS_LIKES []
  { nickname := nickname, uid := uid, level := level, region := region, rank := rank,
    likes := (_coerce_int likes.1, likes.2), guild := guild, country := country, bio := bio }

/-- One `label: value` line of the summary block. -/
def fieldLine (label value : String) : String :=
  "• <b>" ++ label ++ ":</b> " ++ htmlEscape value

/-- The diagnostic entries `f"{label}←<code>{h(w)}</code>"` for each field whose
access path is truthy (present and nonempty). -/
def whereEntries (l : List (String × Option String)) : List String :=
  l.filterMap (fun lw =>
    match lw.2 with
    | some w => if w = "" then none else some (lw.1 ++ "←<code>" ++ htmlEscape w ++ "</code>")
    | none => none)

def format_player_info (data : Json) : String :=
  let root := effectiveRoot data
  let f := resolveFields data
  let parts : List String :=
    ["<b>🟢 Free Fire Player Info</b>",
     fieldLine "Nickname" f.nickname.1,
     "• <b>UID:</b> <code>" ++ htmlEscape f.uid.1 ++ "</code>",
     fieldLine "Level" f.level.1,
     fieldLine "Region/Server" f.region.1,
     fieldLine "Rank/Tier" f.rank.1,
     fieldLine "Likes" f.likes.1,
     fieldLine "Guild" f.guild.1,
     fieldLine "Country" f.country.1,
     fieldLine "Bio" f.bio.1]
  let whereList := whereEntries
    [("nickname", f.nickname.2), ("uid", f.uid.2), ("level", f.level.2),
     ("region", f.region.2), ("rank", f.rank.2), ("likes", f.likes.2),
     ("guild", f.guild.2), ("country", f.country.2), ("bio", f.bio.2)]
  let parts := if whereList = [] then parts
    else parts ++ ["", "<i>Fields source:</i> " ++ String.intercalate ", " whereList]
  let parts :=
    match root with
    | Json.obj kvs =>
        let keysPreview := String.intercalate ", " ((kvs.map Prod.fst).take 20)
        if keysPreview = "" then parts
        else parts ++ ["", "<i>Sections available:</i> " ++ htmlEscape keysPreview]
    | _ => parts
  String.intercalate "\n" parts

/-! ## `parse_command` (src/main.py:208-222) -/
/-- Model of `DEFAULT_SERVER = os.getenv("DEFAULT_SERVER", "sg")` with the default in force. -/
def DEFAULT_SERVER : String := "sg"

inductive Cmd where
  | start : Cmd
  | check : String → String → Cmd
  deriving DecidableEq, Repr

/-- The tail of the `/check` regex after the optional server group: the rest of
the text must be empty (group absent) or `\s+` followed by exactly two letters. -/
def checkTail (ds : List Char) (tail : List Char) : Option (String × Option String) :=
  match tail with
  | [] => some (String.mk ds, none)
  | _ =>
      let ws2 := tail.takeWhile pyIsSpace
      if ws2 = [] then none
      else
        match tail.dropWhile pyIsSpace with
        | [a, b] =>
            if pyIsAlpha a ∧ pyIsAlpha b then some (String.mk ds, some (String.mk [a, b]))
            else none
        | _ => none

/-- Segment `\s+(\d+)(?:\s+([a-z]{2}))?$` of the `/check` regex: required whitespace,
the captured digit run, then `checkTail`. -/
def checkUidPart (cs : List Char) : Option (String × Option String) :=
  if cs.takeWhile pyIsSpace = [] then none
  else if (cs.dropWhile pyIsSpace).takeWhile pyIsDigit = [] then none
  else checkTail ((cs.dropWhile pyIsSpace).takeWhile pyIsDigit)
    ((cs.dropWhile pyIsSpace).dropWhile pyIsDigit)

/-- Segment `(?:@\w+)?` of the `/check` regex: an optional bot-mention suffix.  `\w+` is
greedy and `\w` is disjoint from `\s`, so maximal munch is exact. -/
def checkAfterTag (cs : List Char) : Option (String × Option String) :=
  match cs with
  | [] => checkUidPart []
  | c :: rest =>
      if c = '@' then
        if rest.takeWhile pyIsWord = [] then none
        else checkUidPart (rest.dropWhile pyIsWord)
      else checkUidPart (c :: rest)

/-- Model of `re.match(r"^/check(?:@\w+)?\s+(\d+)(?:\s+([a-z]{2}))?$", text, re.IGNORECASE)`,
returning the two capture groups on success. -/
def matchCheck (t : String) : Option (String × Option String) :=
  let cs := t.toList
  if (cs.take 6).map lowerChar = "/check".toList then checkAfterTag (cs.drop 6)
  else none

/-- Model of `re.match(r"^(\d{6,20})$", text)`. -/
def matchBareDigits (t : String) : Option String :=
  if 6 ≤ pyLen t ∧ pyLen t ≤ 20 ∧ t.toList.all pyIsDigit then some t else none

def parse_command (text : String) : Option Cmd :=
  if pyStrip text = "" then none
  else if pyStartsWith (pyStrip text) "/start" then some Cmd.start
  else
    match matchCheck (pyStrip text) with
    | some (uid, osrv) => some (Cmd.check uid (osrv.getD DEFAULT_SERVER))
    | none =>
        match matchBareDigits (pyStrip text) with
        | some uid => some (Cmd.check uid DEFAULT_SERVER)
        | none => none

/-! ## Upstream fetch and the webhook check branch
(`fetch_player`, src/main.py:79-94; `telegram_webhook`, src/main.py:272-286)

The HTTP exchange is modelled by the observable content of one upstream
response: its status code, its raw text, and its JSON parse (`none` when the
body is not JSON).  `fetch_player` either returns the parsed document or
raises `HTTPException(502, detail)`; the webhook's check branch turns that
exception into the reply `"⚠️ Error: " + html.escape(str(e.detail))`. -/
structure UpstreamResp where
  status : Nat
  text : String
  json : Option Json

/-- Model of `fetch_player` as a function of the single response it observes:
`Except.error detail` models `raise HTTPException(status_code=502, detail=...)`. -/
def fetch_player (r : UpstreamResp) : Except String Json :=
  if r.status ≠ 200 then
    Except.error ("[HTTP " ++ toString r.status ++ "] " ++
      (match r.json with
       | some body => dumps body
       | none => strTake r.text 500))
  else
    match r.json with
    | some data => Except.ok data
    | none => Except.error "Invalid JSON from upstream API."

/-- The message composed by `telegram_webhook`'s check branch from the fetch
outcome (the success branch renders the player summary; modelled here up to
the resolved fields, which is all the claims consult). -/
def checkReplyOf (outcome : Except String Json) : String :=
  match outcome with
  | Except.ok data => format_player_info data
  | Except.error detail => "⚠️ Error: " ++ htmlEscape detail

/-- The whole check branch against an oracle enumerating the upstream
responses successive fetches would observe; the code performs exactly one
fetch, so only `oracle 0` is consulted. -/
def processCheck (oracle : Nat → UpstreamResp) : String :=
  checkReplyOf (fetch_player (oracle 0))

/-! ## Claim C4: the document walker

`Occ j base v p k` holds when the document `j`, reached via access path
`base`, contains somewhere (at any depth) a mapping entry with raw key `k`
and value `v` whose access path is `p` — the declarative notion of an
occurrence, written from the walker's contract. -/
inductive Occ : Json → String → Json → String → String → Prop where
  | here {kvs : List (String × Json)} {base k : String} {v : Json} :
      (k, v) ∈ kvs → Occ (Json.obj kvs) base v (joinPath base k) k
  | inObj {kvs : List (String × Json)} {base k : String} {v val : Json} {p key : String} :
      (k, v) ∈ kvs → Occ v (joinPath base k) val p key → Occ (Json.obj kvs) base val p key
  | inArr {xs : List Json} {base : String} {i : Nat} {x val : Json} {p key : String} :
      xs.get? i = some x → Occ x (idxPath base i) val p key → Occ (Json.arr xs) base val p key

/-! ## Claim C3: count post-processing (`_coerce_int`) -/
/-- The number whose decimal digits are the given characters, written
positionally (most significant first). -/
def decimalVal : List Char → Nat
  | [] => 0
  | c :: rest => (c.toNat - 48) * 10 ^ rest.length + decimalVal rest

/-- The count post-processing as the claim words it: extract the *leading run*
of digit characters and re-render it as a plain integer string (unchanged on
no digits). -/
def leadingRunCoerce (s : String) : String :=
  let run := s.toList.takeWhile pyIsDigit
  if run = [] then s else toString (decimalVal run)

/-! ## Claim C8: upstream failure reporting -/
/-- A JSON body whose dump exceeds the program's only truncation bound (500). -/
def longBody : Json := Json.str (String.mk (List.replicate 600 'a'))

/-! ## Claim C1: the scoring policy of `pick_best` -/
/-- Index of the first occurrence of `x` in `l`. -/
def firstIdx (l : List String) (x : String) : Option Nat :=
  match l with
  | [] => none
  | a :: rest => if a = x then some 0 else (firstIdx rest x).map (· + 1)

/-- The claim's "matched alias's priority index in the caller-supplied alias
list": the position of the matched normalized key among the normalized
aliases, an unmatched key defaulting to the low fixed priority 50. -/
def specPriorityIdx (keys : List String) (nk : String) : Nat :=
  (firstIdx (keys.map _norm) nk).getD 50

/-- Case-insensitive substring occurrence (the claim's "occurs
case-insensitively in the access path"). -/
def ciOccursIn (needle hay : String) : Bool :=
  strContains (lowerStr hay) (lowerStr needle)

/-- The claim's scoring formula: `100 - priority index`, `+80` on a trust
hint, `-80` on a penalty hint, `-70` on a bare `"id"` match. -/
def specScore (keys trust pen : List String) (item : Cand) : Int :=
  (100 - (specPriorityIdx keys item.2.2 : Int))
    + (if ∃ s ∈ trust, ciOccursIn s item.2.1 = true then 80 else 0)
    - (if ∃ s ∈ pen, ciOccursIn s item.2.1 = true then 80 else 0)
    - (if item.2.2 = "id" then 70 else 0)

/-- Position of the last occurrence of `x` in `l`. -/
def lastIdx (l : List String) (x : String) : Option Nat :=
  match l with
  | [] => none
  | a :: rest =>
      match lastIdx rest x with
      | some j => some (j + 1)
      | none => if a = x then some (0 : Nat) else none

/-- The amended priority index: the position of the *last* alias in the
caller-supplied list whose normalization equals the matched key — the index
the comprehension `{ _norm(k): i for i,k in enumerate(keys) }` retains when
two aliases normalize equal — an unmatched key defaulting to the low fixed
priority 50. -/
def specPriorityIdxLast (keys : List String) (nk : String) : Nat :=
  (lastIdx (keys.map _norm) nk).getD 50

/-- The amended scoring formula: as the claim's, but with the last-alias
priority index. -/
def specScoreLast (keys trust pen : List String) (item : Cand) : Int :=
  (100 - (specPriorityIdxLast keys item.2.2 : Int))
    + (if ∃ s ∈ trust, ciOccursIn s item.2.1 = true then 80 else 0)
    - (if ∃ s ∈ pen, ciOccursIn s item.2.1 = true then 80 else 0)
    - (if item.2.2 = "id" then 70 else 0)

/-- A document exhibiting the dict semantics of `order` under an alias list
with duplicate normalizations. -/
def dupAliasDoc : Json := Json.obj [("y", Json.str "1"), ("x", Json.str "2")]

/-! ## Claim C2: trusted sections beat penalized sections -/
/-- The C2 scenario document. -/
def scenarioDoc : Json :=
  Json.obj [("data", Json.obj
    [("basicinfo", Json.obj [("uid", Json.str "500123"), ("nickname", Json.str "Foo")]),
     ("socialinfo", Json.obj [("likes", Json.str "42")]),
     ("petinfo", Json.obj [("id", Json.str "999")])])]

/-! ## Claims C7, C9, C10: the request interpreter

Declarative shapes, written from the claims' wording, for the three input
forms; the iff theorems relate them to the executable parser model. -/
/-- The optional bot-mention suffix `(?:@\w+)?`: empty, or `@` followed by a
nonempty run of word characters. -/
def MentionShape (mid : List Char) : Prop :=
  mid = [] ∨ ∃ w, mid = '@' :: w ∧ w ≠ [] ∧ ∀ c ∈ w, pyIsWord c = true

/-- The optional server-code suffix `(?:\s+([a-z]{2}))?$`: nothing (server
absent), or whitespace then exactly two letters. -/
def TailShape (tail : List Char) (srv : Option String) : Prop :=
  (tail = [] ∧ srv = none) ∨
  ∃ ws2 a b, tail = ws2 ++ [a, b] ∧ ws2 ≠ [] ∧ (∀ c ∈ ws2, pyIsSpace c = true) ∧
    pyIsAlpha a = true ∧ pyIsAlpha b = true ∧ srv = some (String.mk [a, b])

/-- The whole check-command form (C9's wording): `/check` case-insensitively,
an optional `@`-mention, whitespace, a nonempty digit identifier (of any
length), and an optional two-letter server code. -/
def CheckShape (t uid : String) (srv : Option String) : Prop :=
  ∃ pre mid ws1 ds tail : List Char,
    t.toList = pre ++ (mid ++ (ws1 ++ (ds ++ tail))) ∧
    pre.map lowerChar = "/check".toList ∧
    MentionShape mid ∧
    ws1 ≠ [] ∧ (∀ c ∈ ws1, pyIsSpace c = true) ∧
    ds ≠ [] ∧ (∀ c ∈ ds, pyIsDigit c = true) ∧ uid = String.mk ds ∧
    TailShape tail srv

/-- The bare-identifier form: 6 to 20 characters, all digits. -/
def DigitsShape (t : String) : Prop :=
  6 ≤ pyLen t ∧ pyLen t ≤ 20 ∧ ∀ c ∈ t.toList, pyIsDigit c = true

/-- The start form: nonempty stripped input beginning with the exact
characters `/start`. -/
def StartShape (t : String) : Prop :=
  pyStartsWith t "/start" = true

/-! ## Claim C6: the key normalizer -/
/-- The separator-stripping part of `_norm` (underscores removed, then hyphens). -/
def stripSeps (l : List Char) : List Char :=
  (l.filter (fun c => c ≠ '_')).filter (fun c => c ≠ '-')

/-- Two key strings differ only by letter case and by placement of `_`/`-`
separators: after erasing the separators, the remaining characters agree
pointwise up to case. -/
def CaseSepVariant (x y : String) : Prop :=
  List.Forall₂ (fun a b => lowerChar a = lowerChar b) (stripSeps x.toList) (stripSeps y.toList)

/-! ## Theorems -/

theorem mem_searchChildren {c : Cand} {kvs : List (String × Json)} {want : List String}
    {base : String} :
    c ∈ searchChildren kvs want base ↔
      ∃ k v, (k, v) ∈ kvs ∧ c ∈ _search_all v want (joinPath base k) := by
  induction kvs with
  | nil => simp [searchChildren]
  | cons kv rest ih =>
      rw [searchChildren, List.mem_append, ih]
      constructor
      · rintro (hm | ⟨k, v, hkv, hm⟩)
        · exact ⟨kv.1, kv.2, List.mem_cons_self _ _, hm⟩
        · exact ⟨k, v, List.mem_cons_of_mem _ hkv, hm⟩
      · rintro ⟨k, v, hkv, hm⟩
        rcases List.mem_cons.mp hkv with he | hr
        · subst he
          exact Or.inl hm
        · exact Or.inr ⟨k, v, hr, hm⟩

theorem mem_searchElems {c : Cand} {xs : List Json} {want : List String} {base : String}
    {i : Nat} :
    c ∈ searchElems xs want base i ↔
      ∃ j x, xs.get? j = some x ∧ c ∈ _search_all x want (idxPath base (i + j)) := by
  induction xs generalizing i with
  | nil => simp [searchElems]
  | cons x rest ih =>
      rw [searchElems, List.mem_append, ih]
      constructor
      · rintro (hm | ⟨j, y, hj, hm⟩)
        · exact ⟨0, x, rfl, by simpa using hm⟩
        · exact ⟨j + 1, y, by simpa using hj, by
            have : i + 1 + j = i + (j + 1) := by omega
            rwa [this] at hm⟩
      · rintro ⟨j, y, hj, hm⟩
        match j with
        | 0 =>
            left
            simp only [List.get?] at hj
            cases hj
            simpa using hm
        | j' + 1 =>
            right
            refine ⟨j', y, by simpa using hj, ?_⟩
            have : i + (j' + 1) = i + 1 + j' := by omega
            rwa [this] at hm

theorem sizeOf_snd_lt {kvs : List (String × Json)} {k : String} {v : Json}
    (hm : (k, v) ∈ kvs) : sizeOf v < sizeOf (Json.obj kvs) := by
  have h1 : sizeOf (k, v) < sizeOf kvs := List.sizeOf_lt_of_mem hm
  have h2 : sizeOf (Json.obj kvs) = 1 + sizeOf kvs := by simp
  have h3 : sizeOf (k, v) = 1 + sizeOf k + sizeOf v := by simp
  omega

theorem sizeOf_elem_lt {xs : List Json} {i : Nat} {x : Json}
    (hg : xs.get? i = some x) : sizeOf x < sizeOf (Json.arr xs) := by
  have hm : x ∈ xs := List.get?_mem hg
  have h1 : sizeOf x < sizeOf xs := List.sizeOf_lt_of_mem hm
  have h2 : sizeOf (Json.arr xs) = 1 + sizeOf xs := by simp
  omega

theorem mem_search_all_bounded :
    ∀ (n : Nat) (j : Json), sizeOf j ≤ n → ∀ (want : List String) (base : String)
      (v : Json) (p nk : String),
      (v, p, nk) ∈ _search_all j want base ↔
        ∃ k, Occ j base v p k ∧ _norm k ∈ want ∧ nk = _norm k := by
  intro n
  induction n using Nat.strong_induction_on with
  | _ n ih =>
    intro j hsz want base v p nk
    match j with
    | Json.obj kvs =>
        rw [_search_all, List.mem_append, List.mem_filterMap, mem_searchChildren]
        constructor
        · rintro (⟨kv, hkv, hf⟩ | ⟨k, w, hkw, hm⟩)
          · by_cases hw : _norm kv.1 ∈ want
            · rw [if_pos hw] at hf
              simp only [Option.some.injEq, Prod.mk.injEq] at hf
              obtain ⟨h1, h2, h3⟩ := hf
              subst h1; subst h2; subst h3
              exact ⟨kv.1, Occ.here hkv, hw, rfl⟩
            · rw [if_neg hw] at hf
              cases hf
          · have hlt : sizeOf w < sizeOf (Json.obj kvs) := sizeOf_snd_lt hkw
            have hiff := ih (sizeOf w) (by omega) w (Nat.le_refl _) want (joinPath base k) v p nk
            obtain ⟨key, ho, hwant, hnk⟩ := hiff.mp hm
            exact ⟨key, Occ.inObj hkw ho, hwant, hnk⟩
        · rintro ⟨k, ho, hwant, hnk⟩
          cases ho with
          | here hkv =>
              left
              exact ⟨(k, v), hkv, by rw [if_pos hwant, hnk]⟩
          | @inObj _ _ k' w _ _ _ hkw ho' =>
              right
              have hlt : sizeOf w < sizeOf (Json.obj kvs) := sizeOf_snd_lt hkw
              have hiff := ih (sizeOf w) (by omega) w (Nat.le_refl _) want (joinPath base k') v p nk
              exact ⟨k', w, hkw, hiff.mpr ⟨k, ho', hwant, hnk⟩⟩
    | Json.arr xs =>
        rw [_search_all, mem_searchElems]
        constructor
        · rintro ⟨i, x, hg, hm⟩
          have hlt : sizeOf x < sizeOf (Json.arr xs) := sizeOf_elem_lt hg
          have hiff := ih (sizeOf x) (by omega) x (Nat.le_refl _) want (idxPath base (0 + i)) v p nk
          obtain ⟨key, ho, hwant, hnk⟩ := hiff.mp hm
          refine ⟨key, Occ.inArr hg ?_, hwant, hnk⟩
          simpa using ho
        · rintro ⟨k, ho, hwant, hnk⟩
          cases ho with
          | @inArr _ _ i x _ _ _ hg ho' =>
              have hlt : sizeOf x < sizeOf (Json.arr xs) := sizeOf_elem_lt hg
              have hiff := ih (sizeOf x) (by omega) x (Nat.le_refl _) want (idxPath base (0 + i)) v p nk
              exact ⟨i, x, hg, hiff.mpr ⟨k, by simpa using ho', hwant, hnk⟩⟩
    | Json.str s =>
        rw [show _search_all (Json.str s) want base = ([] : List Cand) from rfl]
        constructor
        · intro hm
          cases hm
        · rintro ⟨k, ho, _, _⟩
          cases ho
    | Json.num m =>
        rw [show _search_all (Json.num m) want base = ([] : List Cand) from rfl]
        constructor
        · intro hm
          cases hm
        · rintro ⟨k, ho, _, _⟩
          cases ho
    | Json.bool b =>
        rw [show _search_all (Json.bool b) want base = ([] : List Cand) from rfl]
        constructor
        · intro hm
          cases hm
        · rintro ⟨k, ho, _, _⟩
          cases ho
    | Json.null =>
        rw [show _search_all (Json.null) want base = ([] : List Cand) from rfl]
        constructor
        · intro hm
          cases hm
        · rintro ⟨k, ho, _, _⟩
          cases ho

theorem mem_search_all {j : Json} {want : List String} {base : String} {v : Json}
    {p nk : String} :
    (v, p, nk) ∈ _search_all j want base ↔
      ∃ k, Occ j base v p k ∧ _norm k ∈ want ∧ nk = _norm k :=
  mem_search_all_bounded (sizeOf j) j (Nat.le_refl _) want base v p nk

theorem search_all_nil_of_no_match {j : Json} {want : List String} {base : String}
    (hno : ∀ v p k, Occ j base v p k → _norm k ∉ want) :
    _search_all j want base = [] := by
  rw [List.eq_nil_iff_forall_not_mem]
  rintro ⟨v, p, nk⟩ hm
  obtain ⟨k, ho, hwant, _⟩ := mem_search_all.mp hm
  exact hno v p k ho hwant

theorem searchChildren_eq_flatMap (kvs : List (String × Json)) (want : List String)
    (base : String) :
    searchChildren kvs want base =
      kvs.flatMap (fun kv => _search_all kv.2 want (joinPath base kv.1)) := by
  induction kvs with
  | nil => rfl
  | cons kv rest ih =>
      rw [show searchChildren (kv :: rest) want base =
        _search_all kv.2 want (joinPath base kv.1) ++ searchChildren rest want base from rfl]
      rw [ih, List.flatMap_cons]

theorem searchElems_eq_flatMap (xs : List Json) (want : List String) (base : String)
    (i : Nat) :
    searchElems xs want base i =
      (List.enumFrom i xs).flatMap (fun ix => _search_all ix.2 want (idxPath base ix.1)) := by
  induction xs generalizing i with
  | nil => rfl
  | cons x rest ih =>
      rw [show searchElems (x :: rest) want base i =
        _search_all x want (idxPath base i) ++ searchElems rest want base (i + 1) from rfl]
      rw [ih, List.enumFrom_cons, List.flatMap_cons]

/-- C4: the walker is sound and complete — a candidate triple is in its output
iff the document has a matching occurrence — and its output is organized
depth-first pre-order: at a mapping node, the direct children matching a
target key come first (in insertion order), followed by the recursion into
each child in insertion order; at a sequence node the elements are traversed
in index order with bracketed-index path suffixes; scalar nodes contribute
nothing; and the result is `[]` (not an error) when no key matches. -/
theorem search_all_characterization :
    (∀ (j : Json) (want : List String) (base : String) (v : Json) (p nk : String),
      (v, p, nk) ∈ _search_all j want base ↔
        ∃ k, Occ j base v p k ∧ _norm k ∈ want ∧ nk = _norm k) ∧
    (∀ (kvs : List (String × Json)) (want : List String) (base : String),
      _search_all (Json.obj kvs) want base =
        (kvs.filterMap (fun kv =>
          if _norm kv.1 ∈ want then some (kv.2, joinPath base kv.1, _norm kv.1) else none))
        ++ kvs.flatMap (fun kv => _search_all kv.2 want (joinPath base kv.1))) ∧
    (∀ (xs : List Json) (want : List String) (base : String),
      _search_all (Json.arr xs) want base =
        xs.enum.flatMap (fun ix => _search_all ix.2 want (idxPath base ix.1))) ∧
    (∀ (want : List String) (base : String),
      (∀ s, _search_all (Json.str s) want base = []) ∧
      (∀ n, _search_all (Json.num n) want base = []) ∧
      (∀ b, _search_all (Json.bool b) want base = []) ∧
      _search_all Json.null want base = []) ∧
    (∀ (j : Json) (want : List String) (base : String),
      (∀ v p k, Occ j base v p k → _norm k ∉ want) → _search_all j want base = []) := by
  refine ⟨fun _ _ _ _ _ _ => mem_search_all, fun kvs want base => ?_, fun xs want base => ?_,
    fun want base => ⟨fun _ => rfl, fun _ => rfl, fun _ => rfl, rfl⟩,
    fun _ _ _ hno => search_all_nil_of_no_match hno⟩
  · rw [show _search_all (Json.obj kvs) want base =
      (kvs.filterMap (fun kv =>
        if _norm kv.1 ∈ want then some (kv.2, joinPath base kv.1, _norm kv.1) else none))
      ++ searchChildren kvs want base from rfl]
    rw [searchChildren_eq_flatMap]
  · rw [show _search_all (Json.arr xs) want base = searchElems xs want base 0 from rfl]
    rw [searchElems_eq_flatMap, List.enum]

/-- Witness for C4 at a concrete document: the membership characterization at
a present triple, and the no-match clause on a document without matches. -/
theorem search_all_characterization_witness :
    ((Json.str "1", "basicinfo.uid", "uid") ∈
      _search_all (Json.obj [("basicinfo", Json.obj [("uid", Json.str "1")])]) ["uid"] "" ↔
      ∃ k, Occ (Json.obj [("basicinfo", Json.obj [("uid", Json.str "1")])]) ""
        (Json.str "1") "basicinfo.uid" k ∧ _norm k ∈ ["uid"] ∧ "uid" = _norm k) ∧
    _search_all (Json.obj [("pet", Json.str "1")]) ["uid"] "" = [] := by
  constructor
  · exact search_all_characterization.1 _ _ _ _ _ _
  · apply search_all_characterization.2.2.2.2
    intro v p k ho
    cases ho with
    | here hkv =>
        simp only [List.mem_singleton, Prod.mk.injEq] at hkv
        rw [hkv.1]
        decide
    | @inObj _ _ k' w _ _ _ hkw ho' =>
        simp only [List.mem_singleton, Prod.mk.injEq] at hkw
        rw [hkw.2] at ho'
        cases ho'

/-! ## Claim C5: no matches means the sentinel, never an error -/
/-- C5: when no occurrence in the document has a key normalizing into the
(normalized) alias set, `pick_best` returns exactly `("—", none)` — the
sentinel with no access path.  (In the embedding `pick_best` is a total
function, so no exception is possible on any `Json` input.) -/
theorem pick_best_sentinel_on_no_match (obj : Json) (keys trust pen : List String)
    (hno : ∀ v p k, Occ obj "" v p k → _norm k ∉ keys.map _norm) :
    pick_best obj keys trust pen = ("—", none) := by
  have hnil : hitsOf obj keys = [] := search_all_nil_of_no_match hno
  rw [pick_best, hnil]

/-- Witness for C5: a document whose only keys normalize outside the alias
set resolves to the sentinel. -/
theorem pick_best_sentinel_on_no_match_witness :
    pick_best (Json.obj [("pet", Json.str "7")]) ["uid", "id"] TRUST_SECTIONS_UID [] =
      ("—", none) := by
  apply pick_best_sentinel_on_no_match
  intro v p k ho
  cases ho with
  | here hkv =>
      simp only [List.mem_singleton, Prod.mk.injEq] at hkv
      rw [hkv.1]
      decide
  | @inObj _ _ k' w _ _ _ hkw ho' =>
      simp only [List.mem_singleton, Prod.mk.injEq] at hkw
      rw [hkw.2] at ho'
      cases ho'

theorem foldl_digits_eq_decimalVal (l : List Char) (a : Nat) :
    l.foldl (fun n c => n * 10 + (c.toNat - 48)) a = a * 10 ^ l.length + decimalVal l := by
  induction l generalizing a with
  | nil => simp [decimalVal]
  | cons c rest ih =>
      rw [List.foldl_cons, ih, decimalVal, List.length_cons, pow_succ]
      ring

theorem digitsToNat_eq_decimalVal (l : List Char) : digitsToNat l = decimalVal l := by
  rw [digitsToNat, foldl_digits_eq_decimalVal]
  simp

/-- Counterexample to C3 as stated: on `"1,234 likes"` the code concatenates
*all* digit runs and yields `"1234"`, while the claimed leading-run
extraction yields `"1"`. -/
theorem coerce_int_leading_run_cex :
    _coerce_int "1,234 likes" = "1234" ∧ leadingRunCoerce "1,234 likes" = "1" ∧
      ("1234" : String) ≠ ("1" : String) := by
  refine ⟨by decide, by decide, by decide⟩

/-- C3 (amended): `_coerce_int` keeps *every* digit character of the input in
order, re-rendering their concatenation as a plain integer string (so leading
zeros are canonicalized away), and returns the input unchanged when it
contains no digit; in particular `"1,234 likes"` coerces to `"1234"` and
`"—"` is returned unchanged. -/
theorem coerce_int_all_digits :
    (∀ s : String,
      (s.toList.filter pyIsDigit = [] → _coerce_int s = s) ∧
      (s.toList.filter pyIsDigit ≠ [] →
        _coerce_int s = toString (decimalVal (s.toList.filter pyIsDigit)))) ∧
    _coerce_int "1,234 likes" = "1234" ∧ _coerce_int "—" = "—" ∧ _coerce_int "007" = "7" := by
  refine ⟨fun s => ⟨fun he => ?_, fun hne => ?_⟩, by decide, by decide, by decide⟩
  · rw [_coerce_int, if_pos he]
  · rw [_coerce_int, if_neg hne, digitsToNat_eq_decimalVal]

/-- Witness for C3 (amended) at concrete inputs. -/
theorem coerce_int_all_digits_witness :
    _coerce_int "—" = "—" ∧
      _coerce_int "1,234 likes" =
        toString (decimalVal (("1,234 likes").toList.filter pyIsDigit)) :=
  ⟨(coerce_int_all_digits.1 "—").1 (by decide),
    (coerce_int_all_digits.1 "1,234 likes").2 (by decide)⟩

set_option maxRecDepth 4096 in
/-- Counterexample to C8 as stated: the error string is *not* always
truncated.  For a non-200 response whose body is valid JSON, the code embeds
the full `json.dumps` of the body — here 602 characters, beyond the only
truncation bound (500, from `r.text[:500]`) the program has — verbatim in
the user-facing reply. -/
theorem upstream_error_untruncated_cex :
    fetch_player ⟨500, "", some longBody⟩ =
      Except.error ("[HTTP 500] " ++ dumps longBody) ∧
    pyLen (dumps longBody) = 602 ∧
    processCheck (fun _ => ⟨500, "", some longBody⟩) =
      "⚠️ Error: " ++ htmlEscape ("[HTTP 500] " ++ dumps longBody) ∧
    500 < pyLen (dumps longBody) := by
  exact ⟨rfl, by decide, rfl, by decide⟩

/-- C8 (amended): every lookup whose upstream fetch yields a non-200 status
or a non-JSON body is reported as an error string in the user-facing reply
(`"⚠️ Error: "` plus the HTML-escaped detail); the detail is truncated to 500
characters when a non-200 body is not JSON, but is the full JSON dump when it
is; the fetch is performed exactly once (the reply depends only on the first
response the fetch oracle would deliver — no retry), and the error path is a
total function terminating in a best-effort message, never a crash. -/
theorem upstream_error_reporting :
    (∀ r : UpstreamResp, r.status ≠ 200 ∨ r.json = none →
      ∃ detail, fetch_player r = Except.error detail ∧
        processCheck (fun _ => r) = "⚠️ Error: " ++ htmlEscape detail) ∧
    (∀ r : UpstreamResp, r.status ≠ 200 → r.json = none →
      fetch_player r =
        Except.error ("[HTTP " ++ toString r.status ++ "] " ++ strTake r.text 500) ∧
      pyLen (strTake r.text 500) ≤ 500) ∧
    (∀ (r : UpstreamResp) (body : Json), r.status ≠ 200 → r.json = some body →
      fetch_player r = Except.error ("[HTTP " ++ toString r.status ++ "] " ++ dumps body)) ∧
    (∀ r : UpstreamResp, r.status = 200 → r.json = none →
      fetch_player r = Except.error "Invalid JSON from upstream API.") ∧
    (∀ g1 g2 : Nat → UpstreamResp, g1 0 = g2 0 → processCheck g1 = processCheck g2) := by
  have herr200 : ∀ r : UpstreamResp, r.status = 200 → r.json = none →
      fetch_player r = Except.error "Invalid JSON from upstream API." := by
    intro r h200 hj
    rw [fetch_player, if_neg (fun hcon => hcon h200), hj]
  have herrnone : ∀ r : UpstreamResp, r.status ≠ 200 → r.json = none →
      fetch_player r =
        Except.error ("[HTTP " ++ toString r.status ++ "] " ++ strTake r.text 500) := by
    intro r hs hj
    rw [fetch_player, if_pos hs, hj]
  have herrsome : ∀ (r : UpstreamResp) (body : Json), r.status ≠ 200 → r.json = some body →
      fetch_player r =
        Except.error ("[HTTP " ++ toString r.status ++ "] " ++ dumps body) := by
    intro r body hs hj
    rw [fetch_player, if_pos hs, hj]
  refine ⟨?_, fun r hs hj => ⟨herrnone r hs hj, ?_⟩, herrsome, herr200,
    fun g1 g2 hg => ?_⟩
  · intro r hr
    rcases Decidable.em (r.status = 200) with h200 | h200
    · have hj : r.json = none := by
        rcases hr with h | h
        · exact absurd h200 h
        · exact h
      refine ⟨"Invalid JSON from upstream API.", herr200 r h200 hj, ?_⟩
      show checkReplyOf (fetch_player r) = _
      rw [herr200 r h200 hj]
      rfl
    · cases hj : r.json with
      | none =>
          refine ⟨"[HTTP " ++ toString r.status ++ "] " ++ strTake r.text 500,
            herrnone r h200 hj, ?_⟩
          show checkReplyOf (fetch_player r) = _
          rw [herrnone r h200 hj]
          rfl
      | some body =>
          refine ⟨"[HTTP " ++ toString r.status ++ "] " ++ dumps body,
            herrsome r body h200 hj, ?_⟩
          show checkReplyOf (fetch_player r) = _
          rw [herrsome r body h200 hj]
          rfl
  · rw [pyLen, strTake]
    show (r.text.toList.take 500).length ≤ 500
    exact List.length_take_le _ _
  · show checkReplyOf (fetch_player (g1 0)) = checkReplyOf (fetch_player (g2 0))
    rw [hg]

/-- Witness for C8 (amended) at a concrete failing response, including the
no-retry clause at two oracles agreeing on their first response. -/
theorem upstream_error_reporting_witness :
    (fetch_player ⟨500, "oops", none⟩ =
        Except.error ("[HTTP " ++ toString (500 : Nat) ++ "] " ++ strTake "oops" 500) ∧
      pyLen (strTake "oops" 500) ≤ 500) ∧
    (∃ detail, fetch_player ⟨404, "gone", none⟩ = Except.error detail ∧
      processCheck (fun _ => ⟨404, "gone", none⟩) = "⚠️ Error: " ++ htmlEscape detail) ∧
    processCheck (fun _ => ⟨500, "x", none⟩) =
      processCheck (fun n => if n = 0 then ⟨500, "x", none⟩ else ⟨200, "", some Json.null⟩) := by
  refine ⟨upstream_error_reporting.2.1 ⟨500, "oops", none⟩ (by decide) rfl,
    upstream_error_reporting.1 ⟨404, "gone", none⟩ (Or.inl (by decide)),
    upstream_error_reporting.2.2.2.2 _ _ rfl⟩

/-! ## Facts about `lowerChar` -/
theorem toNat_ofNat_of_valid {n : Nat} (hv : n.isValidChar) : (Char.ofNat n).toNat = n := by
  rw [Char.ofNat, dif_pos hv]
  rfl

theorem le_char_iff_toNat {a c : Char} : a ≤ c ↔ a.toNat ≤ c.toNat := Iff.rfl

theorem lowerChar_of_upper {c : Char} (hc : 'A' ≤ c ∧ c ≤ 'Z') :
    (lowerChar c).toNat = c.toNat + 32 := by
  have h1 : 65 ≤ c.toNat := le_char_iff_toNat.mp hc.1
  have h2 : c.toNat ≤ 90 := le_char_iff_toNat.mp hc.2
  have hv : (c.toNat + 32).isValidChar := Or.inl (by omega)
  rw [lowerChar, if_pos hc]
  exact toNat_ofNat_of_valid hv

theorem lowerChar_of_not_upper {c : Char} (hc : ¬('A' ≤ c ∧ c ≤ 'Z')) :
    lowerChar c = c := by
  rw [lowerChar, if_neg hc]

theorem lowerChar_toNat_bounds {c : Char} (hc : 'A' ≤ c ∧ c ≤ 'Z') :
    97 ≤ (lowerChar c).toNat ∧ (lowerChar c).toNat ≤ 122 := by
  have h1 : 65 ≤ c.toNat := le_char_iff_toNat.mp hc.1
  have h2 : c.toNat ≤ 90 := le_char_iff_toNat.mp hc.2
  rw [lowerChar_of_upper hc]
  omega

theorem lowerChar_idem (c : Char) : lowerChar (lowerChar c) = lowerChar c := by
  by_cases hc : 'A' ≤ c ∧ c ≤ 'Z'
  · have hb := lowerChar_toNat_bounds hc
    have : ¬('A' ≤ lowerChar c ∧ lowerChar c ≤ 'Z') := by
      intro hcon
      have hle := le_char_iff_toNat.mp hcon.2
      have hz : ('Z').toNat = 90 := rfl
      rw [hz] at hle
      omega
    exact lowerChar_of_not_upper this
  · rw [lowerChar_of_not_upper hc]
    exact lowerChar_of_not_upper hc

theorem lowerChar_ne_sep {c : Char} (hne : c ≠ '_' ∧ c ≠ '-') :
    lowerChar c ≠ '_' ∧ lowerChar c ≠ '-' := by
  by_cases hc : 'A' ≤ c ∧ c ≤ 'Z'
  · have hb := lowerChar_toNat_bounds hc
    constructor
    · intro he
      rw [he] at hb
      revert hb
      decide
    · intro he
      rw [he] at hb
      revert hb
      decide
  · rw [lowerChar_of_not_upper hc]
    exact hne

theorem orderIdx_eq_lastIdx (keys : List String) (nk : String) :
    orderIdx keys nk = lastIdx (keys.map _norm) nk := by
  induction keys with
  | nil => rfl
  | cons k rest ih =>
      simp only [orderIdx, lastIdx, List.map_cons, ih]

theorem scoreOf_eq_specScoreLast (keys trust pen : List String)
    (hT : ∀ s ∈ trust, lowerStr s = s) (hP : ∀ s ∈ pen, lowerStr s = s) (item : Cand) :
    scoreOf keys trust pen item = specScoreLast keys trust pen item := by
  rw [scoreOf, specScoreLast, orderGet, orderIdx_eq_lastIdx keys item.2.2,
    ← specPriorityIdxLast]
  have htr : (trust.any (fun sec => strContains (lowerStr item.2.1) sec) = true) ↔
      (∃ s ∈ trust, ciOccursIn s item.2.1 = true) := by
    rw [List.any_eq_true]
    constructor
    · rintro ⟨s, hs, hc⟩
      exact ⟨s, hs, by rw [ciOccursIn, hT s hs]; exact hc⟩
    · rintro ⟨s, hs, hc⟩
      rw [ciOccursIn, hT s hs] at hc
      exact ⟨s, hs, hc⟩
  have hpe : (pen.any (fun sec => strContains (lowerStr item.2.1) sec) = true) ↔
      (∃ s ∈ pen, ciOccursIn s item.2.1 = true) := by
    rw [List.any_eq_true]
    constructor
    · rintro ⟨s, hs, hc⟩
      exact ⟨s, hs, by rw [ciOccursIn, hP s hs]; exact hc⟩
    · rintro ⟨s, hs, hc⟩
      rw [ciOccursIn, hP s hs] at hc
      exact ⟨s, hs, hc⟩
  rw [if_congr htr rfl rfl, if_congr hpe rfl rfl]

/-- Python's `max(key=f)` over `x :: xs` returns the first element attaining
the maximum key: either the seed `x` dominates (non-strictly) everything in
`xs`, or some element of `xs` strictly beats the seed and everything before
itself, and dominates everything. -/
theorem pyMaxBy_first_argmax (f : Cand → Int) (x : Cand) (xs : List Cand) :
    (pyMaxBy f x xs = x ∧ ∀ y ∈ xs, f y ≤ f x) ∨
    (∃ i y, xs.get? i = some y ∧ pyMaxBy f x xs = y ∧ f x < f y ∧
      (∀ z ∈ xs, f z ≤ f y) ∧ (∀ j z, j < i → xs.get? j = some z → f z < f y)) := by
  induction xs generalizing x with
  | nil => exact Or.inl ⟨rfl, by simp⟩
  | cons a rest ih =>
      have hstep : pyMaxBy f x (a :: rest) = pyMaxBy f (if f a > f x then a else x) rest := rfl
      by_cases hfa : f a > f x
      · rw [if_pos hfa] at hstep
        rcases ih a with ⟨he, hall⟩ | ⟨i, y, hg, he, hlt, hall, hbef⟩
        · refine Or.inr ⟨0, a, rfl, hstep.trans he, hfa, ?_, ?_⟩
          · intro z hz
            rcases List.mem_cons.mp hz with hz | hz
            · exact hz ▸ le_refl _
            · exact hall z hz
          · intro j z hj _
            omega
        · refine Or.inr ⟨i + 1, y, by simpa using hg, hstep.trans he, lt_trans hfa hlt, ?_, ?_⟩
          · intro z hz
            rcases List.mem_cons.mp hz with hz | hz
            · exact hz ▸ le_of_lt hlt
            · exact hall z hz
          · intro j z hj hgz
            match j with
            | 0 =>
                simp only [List.get?] at hgz
                cases hgz
                exact hlt
            | j' + 1 =>
                exact hbef j' z (by omega) (by simpa using hgz)
      · rw [if_neg hfa] at hstep
        have hax : f a ≤ f x := le_of_not_lt hfa
        rcases ih x with ⟨he, hall⟩ | ⟨i, y, hg, he, hlt, hall, hbef⟩
        · refine Or.inl ⟨hstep.trans he, ?_⟩
          intro z hz
          rcases List.mem_cons.mp hz with hz | hz
          · exact hz ▸ hax
          · exact hall z hz
        · refine Or.inr ⟨i + 1, y, by simpa using hg, hstep.trans he, hlt, ?_, ?_⟩
          · intro z hz
            rcases List.mem_cons.mp hz with hz | hz
            · exact hz ▸ le_of_lt (lt_of_le_of_lt hax hlt)
            · exact hall z hz
          · intro j z hj hgz
            match j with
            | 0 =>
                simp only [List.get?] at hgz
                cases hgz
                exact lt_of_le_of_lt hax hlt
            | j' + 1 =>
                exact hbef j' z (by omega) (by simpa using hgz)

/-- The first-maximum property transported to a whole nonempty hit list. -/
theorem pyMaxBy_cons_first_argmax (f : Cand → Int) (x : Cand) (xs : List Cand) :
    ∃ i c, (x :: xs).get? i = some c ∧ pyMaxBy f x xs = c ∧
      (∀ j d, (x :: xs).get? j = some d → f d ≤ f c) ∧
      (∀ j d, j < i → (x :: xs).get? j = some d → f d < f c) := by
  rcases pyMaxBy_first_argmax f x xs with ⟨he, hall⟩ | ⟨i, y, hg, he, hlt, hall, hbef⟩
  · refine ⟨0, x, rfl, he, ?_, ?_⟩
    · intro j d hgd
      match j with
      | 0 =>
          simp only [List.get?] at hgd
          cases hgd
          exact le_refl _
      | j' + 1 =>
          exact hall d (List.get?_mem (by simpa using hgd))
    · intro j d hj _
      omega
  · refine ⟨i + 1, y, by simpa using hg, he, ?_, ?_⟩
    · intro j d hgd
      match j with
      | 0 =>
          simp only [List.get?] at hgd
          cases hgd
          exact le_of_lt hlt
      | j' + 1 =>
          exact hall d (List.get?_mem (by simpa using hgd))
    · intro j d hj hgd
      match j with
      | 0 =>
          simp only [List.get?] at hgd
          cases hgd
          exact hlt
      | j' + 1 =>
          exact hbef j' d (by omega) (by simpa using hgd)

/-- Counterexample to C1 as stated: when two aliases normalize equal — as in
the alias list `["y", "x", "y_"]` here, and exactly as `playerid`/`player_id`
and `likecount`/`like_count` do in the program's own uid and likes calls —
the code's `order` dict keeps the *last* index of the duplicated normalized
alias, not the earlier-alias priority the claim assigns.  On the document
`{"y": "1", "x": "2"}` the claim's scoring ranks the first-encountered
candidate (matched key `"y"`, score 100) strictly above the second (`"x"`,
score 99), so the claimed policy selects the `"y"` candidate, yet `pick_best`
returns the `"x"` candidate (the code scores `"y"` at `100 - 2 = 98`).
On the program's own uid alias list, the code's priority index of
`"playerid"` is 3 (last) where the claim's is 2 (earlier alias). -/
theorem pick_best_alias_index_cex :
    hitsOf dupAliasDoc ["y", "x", "y_"] =
      [(Json.str "1", "y", "y"), (Json.str "2", "x", "x")] ∧
    specScore ["y", "x", "y_"] [] [] (Json.str "1", "y", "y") = 100 ∧
    specScore ["y", "x", "y_"] [] [] (Json.str "2", "x", "x") = 99 ∧
    pick_best dupAliasDoc ["y", "x", "y_"] [] [] = ("2", some "x") ∧
    (("2", some "x") : String × Option String) ≠ ("1", some "y") ∧
    orderGet ["uid", "playeruid", "playerid", "player_id", "id"] "playerid" = 3 ∧
    specPriorityIdx ["uid", "playeruid", "playerid", "player_id", "id"] "playerid" = 2 :=
  ⟨rfl, by decide, by decide, by decide, by decide, by decide, by decide⟩

/-- C1 (amended): with the (already lowercase, as in the program's static
hint tuples) trust/penalty hints and at least one candidate, `pick_best`
assigns each candidate the score `100 - priority index + 80·trust -
80·penalty - 70·(matched key = "id")`, where the priority index is the
position of the *last* alias in the caller-supplied list whose normalization
equals the matched key (an unmatched key defaulting to the low fixed
priority 50), and returns the first-encountered candidate attaining the
maximum score, rendering its value and returning its path. -/
theorem pick_best_scoring_policy_amended (obj : Json) (keys trust pen : List String)
    (hT : ∀ s ∈ trust, lowerStr s = s) (hP : ∀ s ∈ pen, lowerStr s = s)
    (hne : hitsOf obj keys ≠ []) :
    ∃ i c, (hitsOf obj keys).get? i = some c ∧
      (∀ j d, (hitsOf obj keys).get? j = some d →
        specScoreLast keys trust pen d ≤ specScoreLast keys trust pen c) ∧
      (∀ j d, j < i → (hitsOf obj keys).get? j = some d →
        specScoreLast keys trust pen d < specScoreLast keys trust pen c) ∧
      pick_best obj keys trust pen = (_to_str c.1, some c.2.1) := by
  have hsc : ∀ it, scoreOf keys trust pen it = specScoreLast keys trust pen it :=
    scoreOf_eq_specScoreLast keys trust pen hT hP
  match hh : hitsOf obj keys with
  | [] => exact absurd hh hne
  | x :: xs =>
      obtain ⟨i, c, hg, he, hall, hbef⟩ :=
        pyMaxBy_cons_first_argmax (scoreOf keys trust pen) x xs
      refine ⟨i, c, hg, ?_, ?_, ?_⟩
      · intro j d hgd
        rw [← hsc d, ← hsc c]
        exact hall j d hgd
      · intro j d hj hgd
        rw [← hsc d, ← hsc c]
        exact hbef j d hj hgd
      · rw [pick_best, hh]
        show (_to_str (pyMaxBy (scoreOf keys trust pen) x xs).1,
          some (pyMaxBy (scoreOf keys trust pen) x xs).2.1) = (_to_str c.1, some c.2.1)
        rw [he]

/-- Witness for C1 (amended) on the program's own uid alias list — whose
`playerid`/`player_id` aliases normalize equal — with a trusted `player_id`
and a penalized bare `id`. -/
theorem pick_best_scoring_policy_amended_witness :
    ∃ i c, (hitsOf (Json.obj [("basicinfo", Json.obj [("player_id", Json.str "5")]),
        ("petinfo", Json.obj [("id", Json.str "9")])])
        ["uid", "playeruid", "playerid", "player_id", "id"]).get? i = some c ∧
      (∀ j d, (hitsOf (Json.obj [("basicinfo", Json.obj [("player_id", Json.str "5")]),
        ("petinfo", Json.obj [("id", Json.str "9")])])
        ["uid", "playeruid", "playerid", "player_id", "id"]).get? j = some d →
        specScoreLast ["uid", "playeruid", "playerid", "player_id", "id"]
          TRUST_SECTIONS_UID ["petinfo"] d ≤
        specScoreLast ["uid", "playeruid", "playerid", "player_id", "id"]
          TRUST_SECTIONS_UID ["petinfo"] c) ∧
      (∀ j d, j < i → (hitsOf (Json.obj [("basicinfo", Json.obj [("player_id", Json.str "5")]),
        ("petinfo", Json.obj [("id", Json.str "9")])])
        ["uid", "playeruid", "playerid", "player_id", "id"]).get? j = some d →
        specScoreLast ["uid", "playeruid", "playerid", "player_id", "id"]
          TRUST_SECTIONS_UID ["petinfo"] d <
        specScoreLast ["uid", "playeruid", "playerid", "player_id", "id"]
          TRUST_SECTIONS_UID ["petinfo"] c) ∧
      pick_best (Json.obj [("basicinfo", Json.obj [("player_id", Json.str "5")]),
        ("petinfo", Json.obj [("id", Json.str "9")])])
        ["uid", "playeruid", "playerid", "player_id", "id"]
        TRUST_SECTIONS_UID ["petinfo"] = (_to_str c.1, some c.2.1) :=
  pick_best_scoring_policy_amended _ _ _ _ (by decide) (by decide)
    (by
      rw [show hitsOf (Json.obj [("basicinfo", Json.obj [("player_id", Json.str "5")]),
        ("petinfo", Json.obj [("id", Json.str "9")])])
        ["uid", "playeruid", "playerid", "player_id", "id"] =
        [(Json.str "5", "basicinfo.player_id", "playerid"),
          (Json.str "9", "petinfo.id", "id")] from rfl]
      exact List.cons_ne_nil _ _)

theorem scoreOf_trust_gt_penalized {keys trust pen : List String} {c1 c2 : Cand}
    (hT : ∀ s ∈ trust, lowerStr s = s) (hP : ∀ s ∈ pen, lowerStr s = s)
    (hkey : c1.2.2 = c2.2.2)
    (ht1 : ∃ s ∈ trust, ciOccursIn s c1.2.1 = true)
    (hp1 : ∀ s ∈ pen, ¬ ciOccursIn s c1.2.1 = true)
    (hp2 : ∃ s ∈ pen, ciOccursIn s c2.2.1 = true)
    (ht2 : ∀ s ∈ trust, ¬ ciOccursIn s c2.2.1 = true) :
    scoreOf keys trust pen c2 + 160 = scoreOf keys trust pen c1 := by
  have htr1 : trust.any (fun sec => strContains (lowerStr c1.2.1) sec) = true := by
    rw [List.any_eq_true]
    obtain ⟨s, hs, hc⟩ := ht1
    rw [ciOccursIn, hT s hs] at hc
    exact ⟨s, hs, hc⟩
  have hpe1 : pen.any (fun sec => strContains (lowerStr c1.2.1) sec) = false := by
    rw [List.any_eq_false]
    intro s hs
    have := hp1 s hs
    rwa [ciOccursIn, hP s hs] at this
  have hpe2 : pen.any (fun sec => strContains (lowerStr c2.2.1) sec) = true := by
    rw [List.any_eq_true]
    obtain ⟨s, hs, hc⟩ := hp2
    rw [ciOccursIn, hP s hs] at hc
    exact ⟨s, hs, hc⟩
  have htr2 : trust.any (fun sec => strContains (lowerStr c2.2.1) sec) = false := by
    rw [List.any_eq_false]
    intro s hs
    have := ht2 s hs
    rwa [ciOccursIn, hT s hs] at this
  rw [scoreOf, scoreOf, htr1, hpe1, hpe2, htr2, hkey]
  simp only [show (false = true) = False by simp, show (true = true) = True by simp,
    if_false, if_true]
  ring

/-- C2: (general) whenever the walker finds the same logical key once on a
path inside a trusted section (and clear of penalty sections) and once on a
path inside a penalized section (and clear of trust sections), and these are
the only candidates, `pick_best` selects the trusted-section occurrence; and
(scenario) on the concrete document
`{"data": {"basicinfo": {"uid": "500123", "nickname": "Foo"},
"socialinfo": {"likes": "42"}, "petinfo": {"id": "999"}}}` the summary
builder resolves Nickname to `"Foo"` from `basicinfo.nickname`, UID to
`"500123"` from `basicinfo.uid` (not `"999"`), and Likes to `"42"` from
`socialinfo.likes` (paths relative to the effective search root, the
subtree under the wrapper key `"data"`). -/
theorem trusted_section_beats_penalized :
    (∀ (obj : Json) (keys trust pen : List String) (c1 c2 : Cand),
      (∀ s ∈ trust, lowerStr s = s) → (∀ s ∈ pen, lowerStr s = s) →
      c1 ∈ hitsOf obj keys → c1.2.2 = c2.2.2 →
      (∃ s ∈ trust, ciOccursIn s c1.2.1 = true) →
      (∀ s ∈ pen, ¬ ciOccursIn s c1.2.1 = true) →
      (∃ s ∈ pen, ciOccursIn s c2.2.1 = true) →
      (∀ s ∈ trust, ¬ ciOccursIn s c2.2.1 = true) →
      (∀ d ∈ hitsOf obj keys, d = c1 ∨ d = c2) →
      pick_best obj keys trust pen = (_to_str c1.1, some c1.2.1)) ∧
    (resolveFields scenarioDoc).nickname = ("Foo", some "basicinfo.nickname") ∧
    (resolveFields scenarioDoc).uid = ("500123", some "basicinfo.uid") ∧
    (resolveFields scenarioDoc).likes = ("42", some "socialinfo.likes") := by
  refine ⟨?_, by decide, by decide, by decide⟩
  intro obj keys trust pen c1 c2 hT hP hm1 hkey ht1 hp1 hp2 ht2 honly
  have hgap : scoreOf keys trust pen c2 + 160 = scoreOf keys trust pen c1 :=
    scoreOf_trust_gt_penalized hT hP hkey ht1 hp1 hp2 ht2
  match hh : hitsOf obj keys with
  | [] =>
      rw [hh] at hm1
      cases hm1
  | x :: xs =>
      obtain ⟨i, b, hg, he, hall, _⟩ :=
        pyMaxBy_cons_first_argmax (scoreOf keys trust pen) x xs
      rw [hh] at hm1 honly
      have hb : b = c1 := by
        have hmem : b ∈ x :: xs := List.get?_mem hg
        obtain ⟨n, hn⟩ := List.mem_iff_get?.mp hm1
        have hc1le : scoreOf keys trust pen c1 ≤ scoreOf keys trust pen b := hall n c1 hn
        rcases honly b hmem with hbc | hbc
        · exact hbc
        · exfalso
          rw [hbc] at hc1le
          omega
      rw [pick_best, hh]
      show (_to_str (pyMaxBy (scoreOf keys trust pen) x xs).1,
        some (pyMaxBy (scoreOf keys trust pen) x xs).2.1) = (_to_str c1.1, some c1.2.1)
      rw [he, hb]

/-- Witness for C2's general part: a penalized `petinfo.likes` occurrence
comes first in walker order, yet the trusted `socialinfo.likes` one is
selected. -/
theorem trusted_section_beats_penalized_witness :
    pick_best (Json.obj [("petinfo", Json.obj [("likes", Json.str "1")]),
        ("socialinfo", Json.obj [("likes", Json.str "2")])])
      ["likes"] ["socialinfo"] ["petinfo"] = ("2", some "socialinfo.likes") := by
  have hh : hitsOf (Json.obj [("petinfo", Json.obj [("likes", Json.str "1")]),
      ("socialinfo", Json.obj [("likes", Json.str "2")])]) ["likes"] =
      [(Json.str "1", "petinfo.likes", "likes"), (Json.str "2", "socialinfo.likes", "likes")] :=
    rfl
  have := trusted_section_beats_penalized.1
    (Json.obj [("petinfo", Json.obj [("likes", Json.str "1")]),
      ("socialinfo", Json.obj [("likes", Json.str "2")])])
    ["likes"] ["socialinfo"] ["petinfo"]
    (Json.str "2", "socialinfo.likes", "likes") (Json.str "1", "petinfo.likes", "likes")
    (by decide) (by decide)
    (by rw [hh]; exact List.mem_cons_of_mem _ (List.mem_cons_self _ _))
    rfl (by decide) (by decide) (by decide) (by decide)
    (by
      rw [hh]
      intro d hd
      rcases List.mem_cons.mp hd with hd | hd
      · exact Or.inr hd
      · rcases List.mem_cons.mp hd with hd | hd
        · exact Or.inl hd
        · cases hd)
  exact this

/-! ### Character-class facts -/
theorem space_cases {c : Char} (hc : pyIsSpace c = true) :
    c = ' ' ∨ c = '\t' ∨ c = '\n' ∨ c = '\r' ∨ c = '\x0b' ∨ c = '\x0c' := by
  simpa [pyIsSpace] using hc

theorem space_not_digit {c : Char} (hc : pyIsSpace c = true) : pyIsDigit c = false := by
  rcases space_cases hc with h | h | h | h | h | h <;> subst h <;> decide

theorem space_not_word {c : Char} (hc : pyIsSpace c = true) : pyIsWord c = false := by
  rcases space_cases hc with h | h | h | h | h | h <;> subst h <;> decide

theorem space_ne_at {c : Char} (hc : pyIsSpace c = true) : c ≠ '@' := by
  rcases space_cases hc with h | h | h | h | h | h <;> subst h <;> decide

theorem alpha_not_space {c : Char} (hc : pyIsAlpha c = true) : pyIsSpace c = false := by
  cases hsp : pyIsSpace c with
  | false => rfl
  | true =>
      rcases space_cases hsp with h | h | h | h | h | h <;> subst h <;>
        first
        | rfl
        | exact absurd hc (by decide)

theorem digit_not_space {c : Char} (hc : pyIsDigit c = true) : pyIsSpace c = false := by
  cases hsp : pyIsSpace c with
  | false => rfl
  | true => rw [space_not_digit hsp] at hc; cases hc

theorem digit_ne_slash {c : Char} (hc : pyIsDigit c = true) : c ≠ '/' := by
  intro he
  subst he
  cases hc

/-! ### Exact spans -/
theorem takeWhile_all_append {p : Char → Bool} {xs ys : List Char}
    (hall : ∀ c ∈ xs, p c = true) (hhd : ∀ d ds, ys = d :: ds → p d = false) :
    (xs ++ ys).takeWhile p = xs ∧ (xs ++ ys).dropWhile p = ys := by
  induction xs with
  | nil =>
      simp only [List.nil_append]
      cases ys with
      | nil => exact ⟨rfl, rfl⟩
      | cons d ds =>
          have hd := hhd d ds rfl
          exact ⟨List.takeWhile_cons_of_neg (by simp [hd]),
            List.dropWhile_cons_of_neg (by simp [hd])⟩
  | cons x xs' ih =>
      have hx : p x = true := hall x (List.mem_cons_self _ _)
      have ih' := ih (fun c hc => hall c (List.mem_cons_of_mem _ hc))
      rw [List.cons_append, List.takeWhile_cons_of_pos hx, List.dropWhile_cons_of_pos hx,
        ih'.1, ih'.2]
      exact ⟨rfl, rfl⟩

/-! ### The `/check` regex model, characterized -/
theorem checkTail_iff (ds tail : List Char) (uid : String) (srv : Option String) :
    checkTail ds tail = some (uid, srv) ↔ uid = String.mk ds ∧ TailShape tail srv := by
  cases tail with
  | nil =>
      show some (String.mk ds, none) = some (uid, srv) ↔ _
      constructor
      · intro hsome
        simp only [Option.some.injEq, Prod.mk.injEq] at hsome
        exact ⟨hsome.1.symm, Or.inl ⟨rfl, hsome.2.symm⟩⟩
      · rintro ⟨huid, hleft | ⟨ws2, a, b, habs, hne, _⟩⟩
        · rw [huid, hleft.2]
        · exact absurd habs.symm (by simp)
  | cons t0 trest =>
      show (if (t0 :: trest).takeWhile pyIsSpace = [] then none
        else match (t0 :: trest).dropWhile pyIsSpace with
          | [a, b] =>
              if pyIsAlpha a ∧ pyIsAlpha b then some (String.mk ds, some (String.mk [a, b]))
              else none
          | _ => none) = some (uid, srv) ↔ _
      by_cases hws : (t0 :: trest).takeWhile pyIsSpace = []
      · rw [if_pos hws]
        constructor
        · intro hsome
          cases hsome
        · rintro ⟨_, ⟨habs, _⟩ | ⟨ws2, a, b, habs, hne, hsp, _⟩⟩
          · cases habs
          · exfalso
            match ws2, hne with
            | w0 :: ws2', _ =>
                have hw0 : pyIsSpace w0 = true := hsp w0 (List.mem_cons_self _ _)
                have ht0 : t0 = w0 := by
                  have := congrArg (fun l => l.head?) habs
                  simpa using this
                rw [List.takeWhile_cons_of_pos (ht0 ▸ hw0)] at hws
                cases hws
      · rw [if_neg hws]
        have hsp0 : pyIsSpace t0 = true := by
          cases hp : pyIsSpace t0 with
          | true => rfl
          | false =>
              rw [List.takeWhile_cons_of_neg (by simp [hp])] at hws
              exact absurd rfl hws
        constructor
        · intro hsome
          match hdw : (t0 :: trest).dropWhile pyIsSpace, hsome with
          | [a, b], hsome =>
              replace hsome : (if pyIsAlpha a = true ∧ pyIsAlpha b = true
                  then some (String.mk ds, some (String.mk [a, b])) else none) =
                  some (uid, srv) := hsome
              by_cases hab : pyIsAlpha a = true ∧ pyIsAlpha b = true
              · rw [if_pos hab] at hsome
                simp only [Option.some.injEq, Prod.mk.injEq] at hsome
                refine ⟨hsome.1.symm, Or.inr ⟨(t0 :: trest).takeWhile pyIsSpace, a, b,
                  ?_, hws, ?_, hab.1, hab.2, hsome.2.symm⟩⟩
                · rw [← hdw, List.takeWhile_append_dropWhile]
                · intro c hc
                  exact List.mem_takeWhile_imp hc
              · rw [if_neg hab] at hsome
                cases hsome
        · rintro ⟨huid, ⟨habs, _⟩ | ⟨ws2, a, b, habs, hne, hsp, ha, hb, hsrv⟩⟩
          · cases habs
          · have hspans := @takeWhile_all_append pyIsSpace ws2 [a, b] hsp (by
                intro d dd hdd
                simp only [List.cons.injEq] at hdd
                obtain ⟨h1, h2⟩ := hdd
                subst h1
                exact alpha_not_space ha)
            rw [← habs] at hspans
            rw [hspans.2]
            show (if pyIsAlpha a = true ∧ pyIsAlpha b = true
              then some (String.mk ds, some (String.mk [a, b])) else none) = some (uid, srv)
            rw [if_pos ⟨ha, hb⟩, huid, hsrv]

theorem checkUidPart_iff (cs : List Char) (uid : String) (srv : Option String) :
    checkUidPart cs = some (uid, srv) ↔
      ∃ ws1 ds tail : List Char, cs = ws1 ++ (ds ++ tail) ∧
        ws1 ≠ [] ∧ (∀ c ∈ ws1, pyIsSpace c = true) ∧
        ds ≠ [] ∧ (∀ c ∈ ds, pyIsDigit c = true) ∧ uid = String.mk ds ∧
        TailShape tail srv := by
  rw [checkUidPart]
  by_cases hsp1 : cs.takeWhile pyIsSpace = []
  · rw [if_pos hsp1]
    constructor
    · intro hsome
      cases hsome
    · rintro ⟨ws1, ds, tail, habs, hne, hsp, _⟩
      exfalso
      match ws1, hne with
      | w0 :: ws1', _ =>
          have hw0 : pyIsSpace w0 = true := hsp w0 (List.mem_cons_self _ _)
          rw [habs, List.cons_append, List.takeWhile_cons_of_pos hw0] at hsp1
          cases hsp1
  · rw [if_neg hsp1]
    by_cases hds : (cs.dropWhile pyIsSpace).takeWhile pyIsDigit = []
    · rw [if_pos hds]
      constructor
      · intro hsome
        cases hsome
      · rintro ⟨ws1, ds, tail, habs, hne1, hsp, hne2, hdig, _, htail⟩
        exfalso
        have hhd : ∀ d dd, (ds ++ tail) = d :: dd → pyIsSpace d = false := by
          intro d dd hdd
          match ds, hne2 with
          | d0 :: ds', _ =>
              simp only [List.cons_append, List.cons.injEq] at hdd
              obtain ⟨hdd1, hdd2⟩ := hdd
              subst hdd1
              exact digit_not_space (hdig d0 (List.mem_cons_self _ _))
        have hspans := takeWhile_all_append (p := pyIsSpace) hsp hhd
        rw [← habs] at hspans
        have hhd2 : ∀ d dd, tail = d :: dd → pyIsDigit d = false := by
          intro d dd hdd
          rcases htail with ⟨habs2, _⟩ | ⟨ws2, a, b, habs2, hne3, hsp3, _⟩
          · rw [habs2] at hdd
            cases hdd
          · match ws2, hne3 with
            | w0 :: ws2', _ =>
                rw [habs2] at hdd
                simp only [List.cons_append, List.cons.injEq] at hdd
                obtain ⟨hdd1, hdd2⟩ := hdd
                subst hdd1
                exact space_not_digit (hsp3 w0 (List.mem_cons_self _ _))
        have hspans2 := takeWhile_all_append (p := pyIsDigit) hdig hhd2
        rw [hspans.2] at hds
        rw [hds] at hspans2
        exact hne2 hspans2.1.symm
    · rw [if_neg hds]
      rw [checkTail_iff]
      constructor
      · rintro ⟨huid, htail⟩
        refine ⟨cs.takeWhile pyIsSpace, (cs.dropWhile pyIsSpace).takeWhile pyIsDigit,
          (cs.dropWhile pyIsSpace).dropWhile pyIsDigit,
          by rw [List.takeWhile_append_dropWhile, List.takeWhile_append_dropWhile],
          hsp1, fun c hc => List.mem_takeWhile_imp hc,
          hds, fun c hc => List.mem_takeWhile_imp hc, huid, htail⟩
      · rintro ⟨ws1, ds, tail, habs, hne1, hsp, hne2, hdig, huid, htail⟩
        have hhd : ∀ d dd, (ds ++ tail) = d :: dd → pyIsSpace d = false := by
          intro d dd hdd
          match ds, hne2 with
          | d0 :: ds', _ =>
              simp only [List.cons_append, List.cons.injEq] at hdd
              obtain ⟨hdd1, hdd2⟩ := hdd
              subst hdd1
              exact digit_not_space (hdig d0 (List.mem_cons_self _ _))
        have hspans := takeWhile_all_append (p := pyIsSpace) hsp hhd
        rw [← habs] at hspans
        have hhd2 : ∀ d dd, tail = d :: dd → pyIsDigit d = false := by
          intro d dd hdd
          rcases htail with ⟨habs2, _⟩ | ⟨ws2, a, b, habs2, hne3, hsp3, _⟩
          · rw [habs2] at hdd
            cases hdd
          · match ws2, hne3 with
            | w0 :: ws2', _ =>
                rw [habs2] at hdd
                simp only [List.cons_append, List.cons.injEq] at hdd
                obtain ⟨hdd1, hdd2⟩ := hdd
                subst hdd1
                exact space_not_digit (hsp3 w0 (List.mem_cons_self _ _))
        have hspans2 := takeWhile_all_append (p := pyIsDigit) hdig hhd2
        rw [hspans.2, hspans2.1, hspans2.2]
        exact ⟨huid, htail⟩

theorem checkAfterTag_iff (cs : List Char) (uid : String) (srv : Option String) :
    checkAfterTag cs = some (uid, srv) ↔
      ∃ mid rest2 : List Char, cs = mid ++ rest2 ∧ MentionShape mid ∧
        checkUidPart rest2 = some (uid, srv) := by
  cases cs with
  | nil =>
      show checkUidPart [] = some (uid, srv) ↔ _
      rw [show checkUidPart [] = none from rfl]
      constructor
      · intro hsome
        cases hsome
      · rintro ⟨mid, rest2, habs, _, hok⟩
        rcases List.append_eq_nil.mp habs.symm with ⟨hm, hr⟩
        rw [hr, show checkUidPart [] = none from rfl] at hok
        cases hok
  | cons c rest =>
      show (if c = '@' then _ else _) = some (uid, srv) ↔ _
      by_cases hc : c = '@'
      · subst hc
        rw [if_pos rfl]
        by_cases hw : rest.takeWhile pyIsWord = []
        · rw [if_pos hw]
          constructor
          · intro hsome
            cases hsome
          · rintro ⟨mid, rest2, habs, hmid | ⟨w, hmid, hwne, hword⟩, hok⟩
            · rw [hmid, List.nil_append] at habs
              subst habs
              rw [checkUidPart, List.takeWhile_cons_of_neg (by decide), if_pos rfl] at hok
              cases hok
            · rw [hmid] at habs
              simp only [List.cons_append, List.cons.injEq, true_and] at habs
              exfalso
              match w, hwne with
              | w0 :: w', _ =>
                  have hw0 : pyIsWord w0 = true := hword w0 (List.mem_cons_self _ _)
                  rw [habs, List.cons_append, List.takeWhile_cons_of_pos hw0] at hw
                  cases hw
        · rw [if_neg hw]
          constructor
          · intro hok
            refine ⟨'@' :: rest.takeWhile pyIsWord, rest.dropWhile pyIsWord,
              by rw [List.cons_append, List.takeWhile_append_dropWhile],
              Or.inr ⟨rest.takeWhile pyIsWord, rfl, hw, fun c hc => List.mem_takeWhile_imp hc⟩,
              hok⟩
          · rintro ⟨mid, rest2, habs, hmid | ⟨w, hmid, hwne, hword⟩, hok⟩
            · rw [hmid, List.nil_append] at habs
              subst habs
              rw [checkUidPart, List.takeWhile_cons_of_neg (by decide), if_pos rfl] at hok
              cases hok
            · rw [hmid] at habs
              simp only [List.cons_append, List.cons.injEq, true_and] at habs
              obtain ⟨ws1, ds, tail, habs2, hne1, hsp, _⟩ := (checkUidPart_iff _ _ _).mp hok
              have hhd : ∀ d dd, rest2 = d :: dd → pyIsWord d = false := by
                intro d dd hdd
                match ws1, hne1 with
                | w0 :: ws1', _ =>
                    rw [habs2] at hdd
                    simp only [List.cons_append, List.cons.injEq] at hdd
                    obtain ⟨hdd1, hdd2⟩ := hdd
                    subst hdd1
                    exact space_not_word (hsp w0 (List.mem_cons_self _ _))
              have hspans := takeWhile_all_append (p := pyIsWord) hword hhd
              rw [← habs] at hspans
              rw [hspans.2]
              exact hok
      · rw [if_neg hc]
        constructor
        · intro hok
          exact ⟨[], c :: rest, rfl, Or.inl rfl, hok⟩
        · rintro ⟨mid, rest2, habs, hmid | ⟨w, hmid, hwne, hword⟩, hok⟩
          · rw [hmid, List.nil_append] at habs
            subst habs
            exact hok
          · exfalso
            rw [hmid] at habs
            simp only [List.cons_append, List.cons.injEq] at habs
            exact hc habs.1

/-- C9's core: the `/check` regex form is accepted exactly on the declarative
check shape, with the same captured identifier and server code. -/
theorem matchCheck_iff (t uid : String) (srv : Option String) :
    matchCheck t = some (uid, srv) ↔ CheckShape t uid srv := by
  rw [matchCheck]
  by_cases hpre : (t.toList.take 6).map lowerChar = "/check".toList
  · rw [if_pos hpre]
    rw [checkAfterTag_iff]
    constructor
    · rintro ⟨mid, rest2, habs, hmid, hok⟩
      obtain ⟨ws1, ds, tail, habs2, hne1, hsp, hne2, hdig, huid, htail⟩ :=
        (checkUidPart_iff _ _ _).mp hok
      exact ⟨t.toList.take 6, mid, ws1, ds, tail,
        by rw [← habs2, ← habs, List.take_append_drop], hpre, hmid, hne1, hsp, hne2, hdig,
        huid, htail⟩
    · rintro ⟨pre, mid, ws1, ds, tail, habs, hpre2, hmid, hne1, hsp, hne2, hdig, huid, htail⟩
      have hlen : pre.length = 6 := by
        have := congrArg List.length hpre2
        simpa using this
      have hdrop : t.toList.drop 6 = mid ++ (ws1 ++ (ds ++ tail)) := by
        rw [habs, ← hlen, List.drop_left]
      refine ⟨mid, ws1 ++ (ds ++ tail), hdrop, hmid, ?_⟩
      exact (checkUidPart_iff _ _ _).mpr ⟨ws1, ds, tail, rfl, hne1, hsp, hne2, hdig, huid, htail⟩
  · rw [if_neg hpre]
    constructor
    · intro hsome
      cases hsome
    · rintro ⟨pre, mid, ws1, ds, tail, habs, hpre2, _⟩
      exfalso
      have hlen : pre.length = 6 := by
        have := congrArg List.length hpre2
        simpa using this
      have htake : t.toList.take 6 = pre := by
        rw [habs, ← hlen, List.take_left]
      rw [htake] at hpre
      exact hpre hpre2

/-! ### Assembling `parse_command` -/
theorem lowerChar_of_digit {c : Char} (hc : pyIsDigit c = true) : lowerChar c = c := by
  rw [pyIsDigit, decide_eq_true_eq] at hc
  apply lowerChar_of_not_upper
  intro hcon
  have h1 := le_char_iff_toNat.mp hc.2
  have h2 := le_char_iff_toNat.mp hcon.1
  have h9 : ('9').toNat = 57 := rfl
  have hA : ('A').toNat = 65 := rfl
  rw [h9] at h1
  rw [hA] at h2
  omega

theorem lowerChar_eq_slash {c : Char} (hc : lowerChar c = '/') : c = '/' := by
  by_cases hup : 'A' ≤ c ∧ c ≤ 'Z'
  · exfalso
    have hb := lowerChar_toNat_bounds hup
    rw [hc] at hb
    revert hb
    decide
  · rwa [lowerChar_of_not_upper hup] at hc

theorem matchBareDigits_iff (t u : String) :
    matchBareDigits t = some u ↔ DigitsShape t ∧ u = t := by
  rw [matchBareDigits]
  by_cases hc : 6 ≤ pyLen t ∧ pyLen t ≤ 20 ∧ t.toList.all pyIsDigit
  · rw [if_pos hc]
    constructor
    · intro hsome
      simp only [Option.some.injEq] at hsome
      refine ⟨⟨hc.1, hc.2.1, ?_⟩, hsome.symm⟩
      intro c hm
      exact List.all_eq_true.mp hc.2.2 c hm
    · rintro ⟨_, hu⟩
      rw [hu]
  · rw [if_neg hc]
    constructor
    · intro hsome
      cases hsome
    · rintro ⟨⟨h1, h2, h3⟩, _⟩
      exact absurd ⟨h1, h2, List.all_eq_true.mpr h3⟩ hc

theorem startsWith_start_false_of_check_prefix {s : String}
    (hp : (s.toList.take 6).map lowerChar = "/check".toList) :
    pyStartsWith s "/start" = false := by
  cases hh : pyStartsWith s "/start" with
  | false => rfl
  | true =>
      exfalso
      rw [pyStartsWith] at hh
      obtain ⟨rest, hrest⟩ := List.isPrefixOf_iff_prefix.mp hh
      have h2 : s.toList.get? 1 = some 's' := by
        rw [← hrest]
        rfl
      have h3 := congrArg (fun l => l.get? 1) hp
      simp only [List.get?_map] at h3
      rw [List.get?_take (by omega), h2] at h3
      simp only [Option.map_some'] at h3
      have : lowerChar 's' = 'c' := by
        injection h3
      exact absurd this (by decide)

theorem string_toList_nil {s : String} (hne : s ≠ "") : s.toList ≠ [] := by
  intro he
  apply hne
  cases s with
  | mk data =>
      cases data with
      | nil => rfl
      | cons c cs => cases he

theorem checkShape_facts {t uid : String} {srv : Option String} (hcs : CheckShape t uid srv) :
    t ≠ "" ∧ pyStartsWith t "/start" = false := by
  obtain ⟨pre, mid, ws1, ds, tail, habs, hpre, _⟩ := hcs
  have hlen : pre.length = 6 := by simpa using congrArg List.length hpre
  have htake : t.toList.take 6 = pre := by
    rw [habs, ← hlen, List.take_left]
  constructor
  · intro he
    rw [he] at htake
    rw [← htake] at hlen
    simp at hlen
  · exact startsWith_start_false_of_check_prefix (by rw [htake]; exact hpre)

theorem digitsShape_facts {t : String} (hd : DigitsShape t) :
    t ≠ "" ∧ pyStartsWith t "/start" = false ∧ matchCheck t = none := by
  obtain ⟨h6, _, hdig⟩ := hd
  have hne : t.toList ≠ [] := by
    intro he
    rw [pyLen, he] at h6
    simp at h6
  match hl : t.toList, hne with
  | c :: cs, _ =>
      have hcd : pyIsDigit c = true := hdig c (by rw [hl]; exact List.mem_cons_self _ _)
      refine ⟨?_, ?_, ?_⟩
      · intro he
        rw [he] at hl
        cases hl
      · cases hh : pyStartsWith t "/start" with
        | false => rfl
        | true =>
            exfalso
            rw [pyStartsWith] at hh
            obtain ⟨rest, hrest⟩ := List.isPrefixOf_iff_prefix.mp hh
            rw [hl] at hrest
            have hc0 : c = '/' := by
              have := congrArg (fun l => l.head?) hrest
              simpa using this.symm
            rw [hc0] at hcd
            cases hcd
      · rw [matchCheck]
        have hcond : ¬ (t.toList.take 6).map lowerChar = "/check".toList := by
          intro hp
          have h3 := congrArg (fun l => l.get? 0) hp
          simp only [List.get?_map] at h3
          rw [List.get?_take (by omega), hl] at h3
          simp only [List.get?] at h3
          simp only [Option.map_some'] at h3
          have hc0 : lowerChar c = '/' := by injection h3
          exact absurd (lowerChar_eq_slash hc0) (digit_ne_slash hcd)
        rw [if_neg hcond]

/-- C7 (amended): `parse_command` recognizes exactly three forms — the start
command by case-**sensitive** prefix matching of `/start` on the stripped
text; the check command (case-insensitive `/check`, optional bot-mention,
digit identifier, optional two-letter server code defaulting to the
configured default server); and a bare digit string of 6–20 characters as an
implicit check with the default server — and yields the unrecognized result
(`none`) on everything else.  Scenario: `"/check 123456789 in"` parses to
check(123456789, in); `"123456789"` to check with the default server;
`"hello"` is unrecognized. -/
theorem parse_command_three_forms :
    (∀ t : String, StartShape (pyStrip t) → parse_command t = some Cmd.start) ∧
    (∀ (t uid : String) (srv : Option String), CheckShape (pyStrip t) uid srv →
      parse_command t = some (Cmd.check uid (srv.getD DEFAULT_SERVER))) ∧
    (∀ t : String, DigitsShape (pyStrip t) →
      parse_command t = some (Cmd.check (pyStrip t) DEFAULT_SERVER)) ∧
    (∀ t : String, ¬ StartShape (pyStrip t) →
      (∀ (uid : String) (srv : Option String), ¬ CheckShape (pyStrip t) uid srv) →
      ¬ DigitsShape (pyStrip t) → parse_command t = none) ∧
    parse_command "/check 123456789 in" = some (Cmd.check "123456789" "in") ∧
    parse_command "123456789" = some (Cmd.check "123456789" DEFAULT_SERVER) ∧
    parse_command "hello" = none := by
  refine ⟨?_, ?_, ?_, ?_, by decide, by decide, by decide⟩
  · intro t hs
    rw [StartShape] at hs
    have hne : pyStrip t ≠ "" := by
      intro he
      rw [he] at hs
      exact absurd hs (by decide)
    rw [parse_command, if_neg hne, if_pos hs]
  · intro t uid srv hcs
    obtain ⟨hne, hstart⟩ := checkShape_facts hcs
    rw [parse_command, if_neg hne, if_neg (by rw [hstart]; exact Bool.false_ne_true),
      (matchCheck_iff _ _ _).mpr hcs]
  · intro t hd
    obtain ⟨hne, hstart, hmc⟩ := digitsShape_facts hd
    rw [parse_command, if_neg hne, if_neg (by rw [hstart]; exact Bool.false_ne_true), hmc,
      (matchBareDigits_iff _ _).mpr ⟨hd, rfl⟩]
  · intro t hs hcs hd
    rw [parse_command]
    by_cases hne : pyStrip t = ""
    · rw [if_pos hne]
    · rw [if_neg hne]
      have hstart : ¬ pyStartsWith (pyStrip t) "/start" = true := hs
      rw [if_neg hstart]
      match hmc : matchCheck (pyStrip t) with
      | some (uid, osrv) =>
          exact absurd ((matchCheck_iff _ _ _).mp hmc) (hcs uid osrv)
      | none =>
          match hbd : matchBareDigits (pyStrip t) with
          | some uid =>
              exact absurd ((matchBareDigits_iff _ _).mp hbd).1 hd
          | none => rfl

/-- Counterexample to C7 as stated: command recognition is *not*
case-insensitive for the start command — `"/START"` is unrecognized while
`"/start"` is recognized. -/
theorem parse_command_start_case_cex :
    parse_command "/START" = none ∧ parse_command "/start" = some Cmd.start :=
  ⟨by decide, by decide⟩

/-- Witness for C7 (amended) at concrete inputs, exercising the three forms. -/
theorem parse_command_three_forms_witness :
    parse_command "/starting" = some Cmd.start ∧
    parse_command "/CHECK 42 br" = some (Cmd.check "42" "br") ∧
    parse_command "55555555" = some (Cmd.check "55555555" DEFAULT_SERVER) := by
  refine ⟨parse_command_three_forms.1 "/starting" (by
    show pyStartsWith (pyStrip "/starting") "/start" = true
    decide), ?_, ?_⟩
  · have := parse_command_three_forms.2.1 "/CHECK 42 br" "42" (some "br")
      ⟨"/CHECK".toList, [], [' '], ['4', '2'], [' ', 'b', 'r'],
        by decide, by decide, Or.inl rfl, by decide, by decide, by decide, by decide, rfl,
        Or.inr ⟨[' '], 'b', 'r', rfl, by decide, by decide, by decide, by decide, rfl⟩⟩
    exact this
  · have := parse_command_three_forms.2.2.1 "55555555"
      ⟨by decide, by decide, by decide⟩
    exact this

/-- C9: the `/check` form is accepted exactly on the declarative shape —
case-insensitive `/check`, optional `@`-mention, whitespace, an identifier of
one or more digits (no 6–20 restriction), optional two-letter server code —
and a `/check` text the regex rejects (e.g. a non-digit identifier) parses to
the unrecognized result. -/
theorem check_command_form :
    (∀ (t uid : String) (srv : Option String),
      matchCheck t = some (uid, srv) ↔ CheckShape t uid srv) ∧
    (∀ t : String, ((pyStrip t).toList.take 6).map lowerChar = "/check".toList →
      matchCheck (pyStrip t) = none → parse_command t = none) ∧
    matchCheck "/check 1" = some ("1", none) ∧
    matchCheck "/check@MyBot 123456789 IN" = some ("123456789", some "IN") ∧
    matchCheck "/check 123456789012345678901234567 sg" =
      some ("123456789012345678901234567", some "sg") ∧
    matchCheck "/check abc12" = none ∧ parse_command "/check abc12" = none := by
  refine ⟨matchCheck_iff, ?_, by decide, by decide, by decide, by decide, by decide⟩
  intro t hp hmc
  have hne : pyStrip t ≠ "" := by
    intro he
    rw [he] at hp
    exact absurd (congrArg List.length hp) (by decide)
  have hstart : pyStartsWith (pyStrip t) "/start" = false :=
    startsWith_start_false_of_check_prefix hp
  have hlist : (pyStrip t).toList ≠ [] := string_toList_nil hne
  match hl : (pyStrip t).toList, hlist with
  | c :: cs, _ =>
      have hc0 : lowerChar c = '/' := by
        have h3 := congrArg (fun l => l.get? 0) hp
        simp only [List.get?_map] at h3
        rw [List.get?_take (by omega), hl] at h3
        simp only [List.get?] at h3
        simp only [Option.map_some'] at h3
        injection h3
      have hcslash : c = '/' := lowerChar_eq_slash hc0
      have hbd : matchBareDigits (pyStrip t) = none := by
        rw [matchBareDigits, if_neg]
        intro hcon
        have hall := List.all_eq_true.mp hcon.2.2 c (by rw [hl]; exact List.mem_cons_self _ _)
        rw [hcslash] at hall
        cases hall
      rw [parse_command, if_neg hne, if_neg (by rw [hstart]; exact Bool.false_ne_true),
        hmc, hbd]

/-- Witness for C9 at a concrete input: the iff applied at `"/check 77 br"`,
and the unrecognized clause applied at `"/check xyz"`. -/
theorem check_command_form_witness :
    (matchCheck "/check 77 br" = some ("77", some "br") ↔
      CheckShape "/check 77 br" "77" (some "br")) ∧
    parse_command "/check xyz" = none := by
  constructor
  · exact check_command_form.1 "/check 77 br" "77" (some "br")
  · exact check_command_form.2.1 "/check xyz" (by decide) (by decide)

/-- C10: the start command is recognized by case-sensitive prefix matching on
the stripped text, including trailing-text inputs such as `"/startxyz"` and
`"/start extra words"`, taking precedence over the other forms; `"/Start"`
(different case) is not recognized. -/
theorem start_prefix_matching :
    (∀ t : String, pyStartsWith (pyStrip t) "/start" = true →
      parse_command t = some Cmd.start) ∧
    parse_command "/startxyz" = some Cmd.start ∧
    parse_command "/start extra words" = some Cmd.start ∧
    parse_command "/Start" = none := by
  refine ⟨?_, by decide, by decide, by decide⟩
  intro t hs
  have hne : pyStrip t ≠ "" := by
    intro he
    rw [he] at hs
    exact absurd hs (by decide)
  rw [parse_command, if_neg hne, if_pos hs]

/-- Witness for C10: the prefix rule applied at `"/start hi"`. -/
theorem start_prefix_matching_witness : parse_command "/start hi" = some Cmd.start :=
  start_prefix_matching.1 "/start hi" (by decide)

theorem norm_eq_strip_map (s : String) :
    _norm s = String.mk ((stripSeps s.toList).map lowerChar) := rfl

theorem mem_stripSeps_ne_sep {c : Char} {l : List Char} (hm : c ∈ stripSeps l) :
    c ≠ '_' ∧ c ≠ '-' := by
  unfold stripSeps at hm
  have h2 := List.mem_filter.mp hm
  have h1 := List.mem_filter.mp h2.1
  constructor
  · simpa using h1.2
  · simpa using h2.2

theorem stripSeps_map_lowerChar_stripSeps (l : List Char) :
    stripSeps ((stripSeps l).map lowerChar) = (stripSeps l).map lowerChar := by
  have hall : ∀ a ∈ (stripSeps l).map lowerChar, a ≠ '_' ∧ a ≠ '-' := by
    intro a ha
    obtain ⟨c, hc, hce⟩ := List.mem_map.mp ha
    subst hce
    exact lowerChar_ne_sep (mem_stripSeps_ne_sep hc)
  unfold stripSeps
  rw [List.filter_eq_self.mpr, List.filter_eq_self.mpr]
  · intro a ha
    simpa using (hall a ha).1
  · intro a ha
    have := hall a (List.mem_of_mem_filter ha)
    simpa using this.2

theorem norm_idem (x : String) : _norm (_norm x) = _norm x := by
  rw [norm_eq_strip_map x, norm_eq_strip_map]
  show String.mk (List.map lowerChar (stripSeps ((stripSeps x.toList).map lowerChar))) = _
  rw [stripSeps_map_lowerChar_stripSeps, List.map_map]
  congr 1
  apply List.map_congr_left
  intro a _
  exact lowerChar_idem a

theorem map_lowerChar_of_forall₂ {l1 l2 : List Char}
    (hv : List.Forall₂ (fun a b => lowerChar a = lowerChar b) l1 l2) :
    l1.map lowerChar = l2.map lowerChar := by
  induction hv with
  | nil => rfl
  | cons hab _ ih => simpa [ih] using hab

theorem norm_of_caseSepVariant {x y : String} (hv : CaseSepVariant x y) :
    _norm x = _norm y := by
  rw [norm_eq_strip_map x, norm_eq_strip_map y]
  congr 1
  exact map_lowerChar_of_forall₂ hv

/-- C6: `_norm` is idempotent, and any two key strings that differ only by
letter case or by placement of underscore/hyphen separators normalize to the
same output; in particular `"Player_ID"`, `"playerid"` and `"PLAYER-ID"` all
normalize equal. -/
theorem norm_idempotent_and_case_sep_insensitive :
    (∀ x : String, _norm (_norm x) = _norm x) ∧
    (∀ x y : String, CaseSepVariant x y → _norm x = _norm y) ∧
    (_norm "Player_ID" = _norm "playerid" ∧ _norm "playerid" = _norm "PLAYER-ID") :=
  ⟨norm_idem, fun _ _ => norm_of_caseSepVariant, by decide, by decide⟩

/-- Witness for C6 at concrete inputs: the case/separator-insensitivity part
applied to `"Player_ID"` and `"PLAYER-ID"`, together with the idempotence part
applied to `"Player_ID"`. -/
theorem norm_idempotent_and_case_sep_insensitive_witness :
    _norm "Player_ID" = _norm "PLAYER-ID" ∧ _norm (_norm "Player_ID") = _norm "Player_ID" :=
  ⟨norm_idempotent_and_case_sep_insensitive.2.1 "Player_ID" "PLAYER-ID"
      (by unfold CaseSepVariant stripSeps; decide),
    norm_idempotent_and_case_sep_insensitive.1 "Player_ID"⟩
